import Mathlib

/-!
Shallow embedding of src/basebiginteger.py (class BaseBigInteger): an
arbitrary-precision integer with a configurable base, a sign flag and a
little-endian digit sequence.

Numpy digit arrays are modelled as List Int with exact integer arithmetic.
Python floor division and floor modulo on a positive base agree with Int
division and modulo of Lean ((-7) / 2 = -4 and (-7) % 2 = 1 here), so the
carry arithmetic is translated verbatim.  The numpy dtype of the digit
store is kept as a tag (NpDType); the 16-bit wraparound of the default
np.int16 store is modelled separately (wrap16, mulScalarI16) for the one
claim whose truth depends on overflow.  For the bases 2..36 every
intermediate digit quantity of the algorithms is far below 2^15, so on
those bases the exact model is the behaviour of the code.
-/

/-- Numpy dtype tag for the digit store (the store argument of the
constructor; np.int16 is the default).  Only the identity of the tag is
needed by the claims; digit arithmetic itself is modelled exactly. -/
inductive NpDType where
  | int16 : NpDType
  | int32 : NpDType
  | int64 : NpDType
deriving DecidableEq, Repr

/-- The Value of the spec: fields _number (little-endian digits), _base,
_negative and _store of a BaseBigInteger instance. -/
structure BBI where
  number : List Int
  base : Int
  negative : Bool
  store : NpDType
deriving DecidableEq, Repr

/-- Integer denoted by a little-endian digit list in the given base
(the base-weighted sum of the digits). -/
def val (base : Int) : List Int → Int
  | [] => 0
  | d :: l => d + base * val base l

/-- All digits of the list lie in the canonical range [0, base). -/
def InRange (base : Int) (l : List Int) : Prop := ∀ d ∈ l, 0 ≤ d ∧ d < base

/-- np.trim_zeros(a, trim = back): drop zero entries at the back of the
array, that is at the most-significant end of the digit sequence. -/
def trimBack (l : List Int) : List Int := (l.reverse.dropWhile (fun d => d = 0)).reverse

/-- The list carries no most-significant zero digits (it is its own
trimBack); the empty list counts as trimmed, the list [0] does not. -/
def Trimmed (l : List Int) : Prop := trimBack l = l

/-- A digit list as it occurs inside the arithmetic internals: either free
of most-significant zeros (possibly empty), or the single-digit zero. -/
def TrimmedOr0 (l : List Int) : Prop := Trimmed l ∨ l = [0]

/-- Digit list of a canonical Value: nonempty, digits in range, and no
most-significant zero except the single-digit zero. -/
def Canon (v : BBI) : Prop :=
  v.number ≠ [] ∧ InRange v.base v.number ∧ TrimmedOr0 v.number

/-- Signed integer denoted by a Value. -/
def toInt (v : BBI) : Int := (if v.negative then -1 else 1) * val v.base v.number

/-- The for-loop of propogate_carryovers (src lines 225-231) with the
current position held in d: for each position except the last, add
digit div base into the next position and reduce the digit modulo base,
scanning from the least significant end.  The last position receives its
incoming carry and is left unreduced. -/
def carryLoopAux (base : Int) (d : Int) : List Int → List Int
  | [] => [d]
  | e :: rest => (d % base) :: carryLoopAux base (e + d / base) rest

/-- The for-loop of propogate_carryovers applied to a whole digit array. -/
def carryLoop (base : Int) : List Int → List Int
  | [] => []
  | d :: rest => carryLoopAux base d rest

/-- The negative-top fix of propogate_carryovers (src lines 236-241): when
the most-significant digit is negative, write its remainder modulo base
into the second-most-significant position and zero the top (or, for a
single digit, reduce it modulo base in place). -/
def fixTop (base : Int) : List Int → List Int
  | [] => []
  | [t] => [t % base]
  | [_x, t] => [t % base, 0]
  | d :: rest => d :: fixTop base rest

/-- Fuel-bounded form of the digit-splitting loop shared by the while-loop
of propogate_carryovers (src lines 245-247) and the integer constructor
loop of __init__ (src lines 60-69): while the value is at least base, emit
value mod base and continue on value div base.  The fuel only bounds the
recursion depth; extendTop_eq below shows that with fuel at least t the
loop runs to completion, so the wrapper extendTop is the loop itself.  The
guard 2 <= base reflects that the Python loops do not terminate for
base < 2, a configuration excluded by the spec. -/
def extendTopAux (base : Int) : Nat → Int → List Int
  | 0, t => [t]
  | fuel + 1, t =>
    if 2 ≤ base ∧ base ≤ t then (t % base) :: extendTopAux base fuel (t / base) else [t]

/-- The while-loop of propogate_carryovers (src lines 245-247) applied to a
single top digit t: the digits, least significant first, produced by
repeatedly splitting off t mod base. -/
def extendTop (base t : Int) : List Int := extendTopAux base t.toNat t

/-- Replace the most-significant digit of the list by its extendTop
expansion: this is the effect of the append-and-reduce while-loop of
propogate_carryovers on the whole array. -/
def attachTop (base : Int) : List Int → List Int
  | [] => []
  | [t] => extendTop base t
  | d :: rest => d :: attachTop base rest

/-- propogate_carryovers (src lines 223-252).  The method receives the base
both as the argument base and as self._base; every call site passes
self._base for both, so a single parameter is faithful.  An empty array
yields the single digit zero with sign false. -/
def propogate_carryovers (base : Int) (result : List Int) (negative : Bool) :
    List Int × Bool :=
  match (carryLoop base result).getLast? with
  | none => ([0], false)
  | some t =>
    if t < 0 then (attachTop base (fixTop base (carryLoop base result)), !negative)
    else (attachTop base (carryLoop base result), negative)

/-- The most-significant-first digit comparison of get_bigger_smaller
(src lines 215-220), applied to the reversed digit lists: the first
differing digit decides. -/
def revCmp : List Int → List Int → Ordering
  | a :: as, b :: bs =>
    if a < b then Ordering.lt else if b < a then Ordering.gt else revCmp as bs
  | _, _ => Ordering.eq

/-- get_bigger_smaller (src lines 209-221): the longer sequence wins; at
equal length the digits are compared from the most significant end and the
first differing digit decides; on full equality the first operand is
returned as bigger. -/
def get_bigger_smaller (x y : List Int) : List Int × List Int :=
  if x.length < y.length then (y, x)
  else if x.length = y.length ∧ revCmp x.reverse y.reverse = Ordering.lt then (y, x)
  else (x, y)

/-- The digit-wise combination step of _add_numbers (src lines 149-156): a
copy of bigger whose low-order overlap receives smaller added (equal signs)
or subtracted (different signs), the remaining high digits kept. -/
def overlay (sub : Bool) (bigger smaller : List Int) : List Int :=
  if sub then
    List.zipWith (fun u v => u - v) (bigger.take smaller.length) smaller ++
      bigger.drop smaller.length
  else
    List.zipWith (fun u v => u + v) (bigger.take smaller.length) smaller ++
      bigger.drop smaller.length

/-- The _add_numbers method (src lines 139-161): pick bigger and smaller by
magnitude, overlay the smaller onto a copy of the bigger according to the
sign comparison, normalize through propogate_carryovers with the sign of
the operand selected as bigger, and trim most-significant zeros from the
result.  The Python test (n1 is bigger) holds exactly when the comparator
returned the first operand, which coincides with list equality of bigger
and n1. -/
def add_numbers (base : Int) (n1 : List Int) (neg1 : Bool) (n2 : List Int) (neg2 : Bool) :
    List Int × Bool :=
  let q := propogate_carryovers base
    (overlay (neg1 != neg2) (get_bigger_smaller n1 n2).1 (get_bigger_smaller n1 n2).2)
    (if (get_bigger_smaller n1 n2).1 = n1 then neg1 else neg2)
  (trimBack q.1, q.2)

/-- Fuel needed by the Karatsuba recursion: the recursion of the source
terminates because the denoted magnitudes of the operands strictly decrease
at every recursive call (proved below for canonical digit lists), so one
unit of fuel per unit of total magnitude suffices. -/
def mulFuel (base : Int) (x y : List Int) : Nat :=
  (val base x).toNat + (val base y).toNat + 1

/-- The recombination tail of _multiply_numbers (src lines 196-205) for a
split point m: z2z0 is z2 plus z0 (the source passes the sign of z1 for z2
on line 198, harmless because every multiplier sign is false), zmiddle is
z1 minus z2z0 shifted left m digits by prepending zeros, zends is z2
shifted left 2m digits plus z0, and the result is zends plus zmiddle. -/
def karatsubaCombine (base : Int) (m : Nat) (z2 z0 z1 : List Int × Bool) :
    List Int × Bool :=
  let z2z0 := add_numbers base z2.1 z1.2 z0.1 z0.2
  let zm := add_numbers base z1.1 z1.2 z2z0.1 (!z2z0.2)
  add_numbers base
    (add_numbers base (List.replicate (2 * m) 0 ++ z2.1) z2.2 z0.1 z0.2).1
    (add_numbers base (List.replicate (2 * m) 0 ++ z2.1) z2.2 z0.1 z0.2).2
    (List.replicate m 0 ++ zm.1) zm.2

/-- One level of the _multiply_numbers body (src lines 169-205) after the
swap that makes first the longer operand, with recur standing for the
recursive call: the single-digit scalar base cases, the empty-operand zero
case, and the Karatsuba split at m = lenfirst div 2 with the low halves
trimmed of most-significant zeros before recursing. -/
def mulStep (base : Int) (recur : List Int → List Int → List Int × Bool)
    (first second : List Int) : List Int × Bool :=
  if first.length = 1 then
    propogate_carryovers base (second.map (fun d => d * first.head!)) false
  else if second.length = 1 then
    propogate_carryovers base (first.map (fun d => d * second.head!)) false
  else if first.length = 0 ∨ second.length = 0 then ([0], false)
  else
    karatsubaCombine base (first.length / 2)
      (recur (first.drop (first.length / 2)) (second.drop (first.length / 2)))
      (recur (trimBack (first.take (first.length / 2)))
        (trimBack (second.take (first.length / 2))))
      (recur
        (add_numbers base (first.drop (first.length / 2)) false
          (trimBack (first.take (first.length / 2))) false).1
        (add_numbers base (second.drop (first.length / 2)) false
          (trimBack (second.take (first.length / 2))) false).1)

/-- The _multiply_numbers recursion (src lines 169-205) with an explicit
fuel parameter standing for the recursion depth (the source recursion is
not structural; the fuel chosen in multiply_numbers is proved adequate for
canonical operands below).  The initial swap making first the longer
operand is from src lines 173-175. -/
def mulFuelRec (base : Int) : Nat → List Int → List Int → List Int × Bool
  | 0, _, _ => ([0], false)
  | Nat.succ fuel, f0, s0 =>
    if f0.length < s0.length then mulStep base (mulFuelRec base fuel) s0 f0
    else mulStep base (mulFuelRec base fuel) f0 s0

/-- Specification of a magnitude product as returned by the multiplier:
sign false, the stated value, digits in range, a nonempty digit list, and
no most-significant zeros whenever the product is not zero. -/
def MulSpec (base : Int) (p : List Int × Bool) (v : Int) : Prop :=
  p.2 = false ∧ val base p.1 = v ∧ InRange base p.1 ∧ p.1 ≠ [] ∧
    (v ≠ 0 → Trimmed p.1)

/-- The _multiply_numbers method: the fuel instance of the recursion at an
adequate fuel. -/
def multiply_numbers (base : Int) (first second : List Int) : List Int × Bool :=
  mulFuelRec base (mulFuel base first second) first second

/-- Tail of __init__ shared by every construction path (src lines 88-97):
normalize through propogate_carryovers, then delete most-significant zero
digits while more than one digit remains. -/
def trimTop (l : List Int) : List Int := if trimBack l = [] then l.take 1 else trimBack l

/-- Assemble a Value from raw digits: propogate_carryovers followed by the
leading-zero cleanup of __init__. -/
def initFinish (base : Int) (ds : List Int) (negative : Bool) (store : NpDType) : BBI :=
  let p := propogate_carryovers base ds negative
  { number := trimTop p.1, base := base, negative := p.2, store := store }

/-- The ndarray branch of __init__ (src lines 45-52): copy the digits, and
replace a zero-length array by the single digit zero. -/
def fromArray (base : Int) (ds : List Int) (negative : Bool) (store : NpDType) : BBI :=
  initFinish base (if ds.length < 1 then [0] else ds) negative store

/-- The digit-extraction loop of the integer branch of __init__
(src lines 60-69) applied to a nonnegative x: little-endian digits by
repeated division, exactly the digit-splitting loop extendTop. -/
def intDigits (base x : Int) : List Int := extendTop base x

/-- The integer branch of __init__ (src lines 54-69): a negative input
flips the sign flag and is negated, then the digits are extracted by
repeated division and the shared normalization tail runs. -/
def fromInt (base x : Int) (negative : Bool) (store : NpDType) : BBI :=
  let neg := if x < 0 then true else negative
  let x2 := if x < 0 then -x else x
  initFinish base (intDigits base x2) neg store

/-- Python int(c) on a single character as used by the base <= 10 string
branch of __init__ (src line 81); none models the ValueError raised on a
character that is not a decimal digit. -/
def charDigit10 (c : Char) : Option Int :=
  if 48 ≤ c.toNat ∧ c.toNat ≤ 57 then some ((c.toNat : Int) - 48) else none

/-- Digit extraction of the base > 10 string branch of __init__
(src lines 84-86): after upcasing, ord(c)-48 for a decimal character and
ord(c)-65+10 otherwise.  Total: every character yields some (possibly
negative or out-of-range) digit value, nothing is rejected. -/
def charDigitHigh (c : Char) : Int :=
  let u := c.toUpper
  if 48 ≤ u.toNat ∧ u.toNat ≤ 57 then (u.toNat : Int) - 48 else (u.toNat : Int) - 65 + 10

/-- The string branch of __init__ (src lines 70-99).  Python evaluates
x[0] first, so the empty string raises (none).  A leading minus sets the
sign and every minus character is removed; a string emptied by the removal
becomes the digit zero; for base <= 10 each character goes through int()
(none on failure), otherwise through the total big-base extraction; the
digit order is reversed into little-endian and the shared normalization
tail runs. -/
def fromStr (base : Int) (s : List Char) (negative : Bool) (store : NpDType) :
    Option BBI :=
  match s with
  | [] => none
  | c0 :: rest =>
    let neg := if c0 = '-' then true else negative
    let stripped := if c0 = '-' then (c0 :: rest).filter (fun c => c ≠ '-') else c0 :: rest
    if stripped.length < 1 then some (initFinish base [0] neg store)
    else if base ≤ 10 then
      match (stripped.reverse).mapM charDigit10 with
      | none => none
      | some ds => some (initFinish base ds neg store)
    else some (initFinish base ((stripped.reverse).map charDigitHigh) neg store)

/-- The __add__ operator (src lines 127-129): add_numbers on the operand
digits and signs, then a fresh Value in the base and store of the left
operand. -/
def BBI.add (x y : BBI) : BBI :=
  let p := add_numbers x.base x.number x.negative y.number y.negative
  fromArray x.base p.1 p.2 x.store

/-- The __sub__ operator (src lines 135-137): addition with the sign of the
right operand inverted. -/
def BBI.sub (x y : BBI) : BBI :=
  let p := add_numbers x.base x.number x.negative y.number (!y.negative)
  fromArray x.base p.1 p.2 x.store

/-- The __mul__ operator (src lines 132-134): multiply_numbers on copies of
the operand digits, result sign the xor of the operand signs or-ed with the
sign returned by the multiplier; the constructor call omits the store
argument, so the result store is the default np.int16. -/
def BBI.mul (x y : BBI) : BBI :=
  let p := multiply_numbers x.base x.number y.number
  fromArray x.base p.1 (p.2 || (x.negative != y.negative)) NpDType.int16

/-- The shift method (src lines 254-264): re-normalize self into a fresh
Value (store omitted, hence default np.int16), then prepend zero digits for
a positive shift, drop the lowest digits for a negative shift smaller than
the digit count, and return the zero Value otherwise. -/
def BBI.shift (v : BBI) (k : Int) : BBI :=
  let result := fromArray v.base v.number v.negative NpDType.int16
  if k = 0 then result
  else if k > 0 then { result with number := List.replicate k.toNat 0 ++ result.number }
  else if (0 : Int) < (result.number.length : Int) + k then
    { result with number := result.number.drop (-k).toNat }
  else fromInt v.base 0 false NpDType.int16

/-- Fuel-bounded decimal rendering of a natural number, most significant
digit first; with fuel at least n the recursion runs to completion. -/
def natToCharsAux : Nat → Nat → List Char
  | 0, n => [Char.ofNat (48 + n)]
  | fuel + 1, n =>
    if n < 10 then [Char.ofNat (48 + n)]
    else natToCharsAux fuel (n / 10) ++ [Char.ofNat (48 + n % 10)]

/-- Decimal digits of a natural number, most significant first, as produced
by Python str on a nonnegative integer. -/
def natToChars (n : Nat) : List Char := natToCharsAux n n

/-- Python str of an integer. -/
def intToChars (d : Int) : List Char :=
  if d < 0 then '-' :: natToChars (-d).toNat else natToChars d.toNat

/-- The digit rendering of the base <= 36 branch of __str__ (src lines
107-109): decimal character below ten, letters from chr(65) above. -/
def digitChar36 (d : Int) : List Char :=
  if d < 10 then intToChars d else [Char.ofNat ((65 + d - 10).toNat)]

/-- The grouped bases recognized by __str__ (src line 110). -/
def powersOfTen : List Int :=
  [100, 1000, 10000, 100000, 1000000, 10000000, 100000000, 1000000000]

/-- Python str.zfill as applied to the nonnegative digit renderings of the
grouped-base branch: pad with leading zero characters to the width. -/
def zfill (w : Nat) (cs : List Char) : List Char :=
  List.replicate (w - cs.length) '0' ++ cs

/-- Fuel-bounded digit-width loop; fuel at least b runs it to
completion. -/
def numWidthAux : Nat → Int → Nat
  | 0, _ => 0
  | fuel + 1, b => if 1 < b then numWidthAux fuel (b / 10) + 1 else 0

/-- The digit width of a grouped base (src lines 115-119): count the
divisions by ten needed to reach one. -/
def numWidth (b : Int) : Nat := numWidthAux b.toNat b

/-- The __str__ method (src lines 101-125).  Base at most ten: sign then
the digits most-significant first through str; base at most 36:
alphanumeric digit characters; a grouped power of ten: the top digit bare,
the remaining digits zero-padded to the group width (the python guard
len(self._number > 1) is a length of a boolean array and is always
truthy, so the branch body always runs); any other base: none, because
the source joins a list of python ints with a string separator, which
raises TypeError. -/
def toStr (v : BBI) : Option (List Char) :=
  let sign : List Char := if v.negative then ['-'] else []
  if v.base ≤ 10 then
    some (sign ++ (v.number.reverse.map intToChars).flatten)
  else if v.base ≤ 36 then
    some (sign ++ (v.number.reverse.map digitChar36).flatten)
  else if v.base ∈ powersOfTen then
    some (sign ++ intToChars v.number.getLast! ++
      (v.number.dropLast.reverse.map (fun d => zfill (numWidth v.base) (intToChars d))).flatten)
  else none

/-- Elementwise sum of two digit lists, the shorter padded with zeros. -/
def addVec : List Int → List Int → List Int
  | [], ys => ys
  | xs, [] => xs
  | x :: xs, y :: ys => (x + y) :: addVec xs ys

/-- Digit convolution: the coefficient list of the product polynomial. -/
def conv : List Int → List Int → List Int
  | [], _ => []
  | d :: ds, ys => addVec (ys.map (fun e => d * e)) (0 :: conv ds ys)

/-- Modelled from the spec: the direct schoolbook reference multiplication
of section 8 (Karatsuba equals schoolbook), absent from the source.  Over
the same digits and base: convolve the digit sequences, normalize the
carries, trim to canonical form; magnitudes only, sign false. -/
def schoolbookMul (base : Int) (x y : List Int) : List Int × Bool :=
  (trimTop (propogate_carryovers base (conv x y) false).1, false)

/-- Twos-complement wraparound at 16 bits: the effect of numpy arithmetic
on an np.int16 array whose exact result leaves the representable range. -/
def wrap16 (x : Int) : Int := (x + 32768) % 65536 - 32768

/-- The single-digit scalar base case of _multiply_numbers (src line 177 or
180) as numpy executes it when both operands live in np.int16 arrays, the
default store: each elementwise product wraps at 16 bits before carry
propagation.  The subsequent propogate_carryovers arithmetic is exact as
long as its intermediate values stay inside int16, which holds at the
counterexample below. -/
def mulScalarI16 (base : Int) (second : List Int) (k : Int) : List Int × Bool :=
  propogate_carryovers base (second.map (fun d => wrap16 (d * k))) false

/-- The character a digit renders to in the alphanumeric branches of
__str__ (base at most 36): a decimal character below ten, a capital letter
from chr(65) above. -/
def chOf (d : Int) : Char :=
  if d < 10 then Char.ofNat (48 + d.toNat) else Char.ofNat ((65 + d - 10).toNat)

instance (base : Int) (l : List Int) : Decidable (InRange base l) := by
  unfold InRange
  infer_instance

instance (l : List Int) : Decidable (Trimmed l) := by
  unfold Trimmed
  infer_instance

instance (l : List Int) : Decidable (TrimmedOr0 l) := by
  unfold TrimmedOr0
  infer_instance

instance (v : BBI) : Decidable (Canon v) := by
  unfold Canon
  infer_instance


/-! Basic facts about val, InRange, trimBack. -/

theorem val_append (base : Int) (l m : List Int) :
    val base (l ++ m) = val base l + base ^ l.length * val base m := by
  induction l with
  | nil => simp [val]
  | cons d l ih => simp [val, ih, pow_succ]; ring

theorem val_replicate_zero (base : Int) (n : Nat) :
    val base (List.replicate n 0) = 0 := by
  induction n with
  | zero => rfl
  | succ n ih => simp [List.replicate_succ, val, ih]

theorem inRange_append {base : Int} {l m : List Int} :
    InRange base (l ++ m) ↔ InRange base l ∧ InRange base m := by
  constructor
  · intro h
    exact ⟨fun d hd => h d (by simp [hd]), fun d hd => h d (by simp [hd])⟩
  · rintro ⟨h1, h2⟩ d hd
    rcases List.mem_append.mp hd with h | h
    · exact h1 d h
    · exact h2 d h

theorem inRange_cons {base d : Int} {l : List Int} :
    InRange base (d :: l) ↔ (0 ≤ d ∧ d < base) ∧ InRange base l := by
  constructor
  · intro h
    exact ⟨h d (by simp), fun e he => h e (by simp [he])⟩
  · rintro ⟨h1, h2⟩ e he
    rcases List.mem_cons.mp he with h | h
    · simpa [h] using h1
    · exact h2 e h

theorem inRange_replicate_zero {base : Int} (hb : 0 < base) (n : Nat) :
    InRange base (List.replicate n 0) := by
  intro d hd
  have := List.eq_of_mem_replicate hd
  omega

theorem val_nonneg {base : Int} {l : List Int} (h : InRange base l) :
    0 ≤ val base l := by
  induction l with
  | nil => simp [val]
  | cons d l ih =>
    have hd := h d (by simp)
    have hl : InRange base l := fun e he => h e (by simp [he])
    have hb : 0 < base := lt_of_le_of_lt hd.1 hd.2
    have h2 := mul_nonneg hb.le (ih hl)
    simp only [val]
    linarith [hd.1]

theorem val_lt {base : Int} {l : List Int} (hb : 0 < base) (h : InRange base l) :
    val base l < base ^ l.length := by
  induction l with
  | nil => simp [val]
  | cons d l ih =>
    have hd := h d (by simp)
    have hl : InRange base l := fun e he => h e (by simp [he])
    have h1 := ih hl
    have h2 := val_nonneg hl
    simp only [val, List.length_cons, pow_succ]
    nlinarith [hd.2, hd.1]

theorem val_eq_zero {base : Int} {l : List Int} (hb : 0 < base) (h : InRange base l)
    (hv : val base l = 0) : ∀ d ∈ l, d = 0 := by
  induction l with
  | nil => simp
  | cons d l ih =>
    have hd := h d (by simp)
    have hl : InRange base l := fun e he => h e (by simp [he])
    have h2 := val_nonneg hl
    have h3 : 0 ≤ base * val base l := mul_nonneg hb.le h2
    simp only [val] at hv
    have hd0 : d = 0 := by nlinarith [hd.1, hd.2]
    have hv2 : val base l = 0 := by nlinarith
    intro e he
    rcases List.mem_cons.mp he with h | h
    · omega
    · exact ih hl hv2 e h

theorem val_pos_of_ne_zero {base : Int} {l : List Int} (hb : 0 < base)
    (h : InRange base l) (hne : ∃ d ∈ l, d ≠ 0) : 0 < val base l := by
  rcases lt_or_eq_of_le (val_nonneg h) with hlt | heq
  · exact hlt
  · obtain ⟨d, hd, hdn⟩ := hne
    exact absurd (val_eq_zero hb h heq.symm d hd) hdn

theorem trimBack_spec (l : List Int) :
    l = trimBack l ++ List.replicate (l.reverse.takeWhile (fun d => d = 0)).length 0 := by
  have h2 : (l.reverse.takeWhile (fun d => d = 0)).reverse
      = List.replicate (l.reverse.takeWhile (fun d => d = 0)).length 0 := by
    rw [← List.length_reverse]
    apply List.eq_replicate_of_mem
    intro b hb
    have hb2 := List.mem_reverse.mp hb
    have := List.mem_takeWhile_imp hb2
    simpa using this
  calc l = l.reverse.reverse := (List.reverse_reverse l).symm
    _ = ((l.reverse.takeWhile (fun d => d = 0)) ++ (l.reverse.dropWhile (fun d => d = 0))).reverse := by
        rw [List.takeWhile_append_dropWhile]
    _ = trimBack l ++ (l.reverse.takeWhile (fun d => d = 0)).reverse := by
        rw [List.reverse_append]; rfl
    _ = trimBack l ++ List.replicate (l.reverse.takeWhile (fun d => d = 0)).length 0 := by
        rw [h2]

theorem trimBack_val (base : Int) (l : List Int) :
    val base (trimBack l) = val base l := by
  conv_rhs => rw [trimBack_spec l]
  rw [val_append, val_replicate_zero]
  ring

theorem trimBack_inRange {base : Int} {l : List Int} (h : InRange base l) :
    InRange base (trimBack l) := by
  intro d hd
  apply h
  rw [trimBack_spec l]
  exact List.mem_append.mpr (Or.inl hd)

theorem trimBack_nil : trimBack ([] : List Int) = [] := rfl

/-! Structure of the carry scan. -/

theorem carryLoopAux_spec {base : Int} (hb : 0 < base) :
    ∀ (l : List Int) (d : Int),
    ∃ m t, carryLoopAux base d l = m ++ [t] ∧ InRange base m ∧
      val base (d :: l) = val base m + base ^ m.length * t ∧
      (d :: l).length = m.length + 1 := by
  intro l
  induction l with
  | nil =>
    intro d
    refine ⟨[], d, rfl, ?_, by simp [val], rfl⟩
    intro e he
    simp at he
  | cons e rest ih =>
    intro d
    obtain ⟨m, t, h1, h2, h3, h4⟩ := ih (e + d / base)
    refine ⟨(d % base) :: m, t, ?_, ?_, ?_, ?_⟩
    · simp [carryLoopAux, h1]
    · rw [inRange_cons]
      exact ⟨⟨Int.emod_nonneg d (by omega), Int.emod_lt_of_pos d hb⟩, h2⟩
    · simp only [val, List.length_cons, pow_succ] at h3 ⊢
      linear_combination base * h3 - Int.ediv_add_emod d base
    · simp only [List.length_cons] at h4 ⊢
      omega

theorem carryLoop_spec {base : Int} (hb : 0 < base) (l : List Int) (hl : l ≠ []) :
    ∃ m t, carryLoop base l = m ++ [t] ∧ InRange base m ∧
      val base l = val base m + base ^ m.length * t ∧ l.length = m.length + 1 := by
  cases l with
  | nil => exact absurd rfl hl
  | cons d rest => exact carryLoopAux_spec hb rest d

theorem carryLoopAux_id {base : Int} (hb : 0 < base) :
    ∀ (l : List Int) (d : Int), 0 ≤ d → d < base → InRange base l →
    carryLoopAux base d l = d :: l := by
  intro l
  induction l with
  | nil => intro d _ _ _; rfl
  | cons e rest ih =>
    intro d hd1 hd2 hl
    have h1 : d % base = d := Int.emod_eq_of_lt hd1 hd2
    have h2 : d / base = 0 := Int.ediv_eq_zero_of_lt hd1 hd2
    rw [inRange_cons] at hl
    simp only [carryLoopAux, h1, h2, add_zero]
    rw [ih e hl.1.1 hl.1.2 hl.2]

theorem carryLoop_id {base : Int} (hb : 0 < base) {l : List Int} (hr : InRange base l) :
    carryLoop base l = l := by
  cases l with
  | nil => rfl
  | cons d rest =>
    rw [inRange_cons] at hr
    exact carryLoopAux_id hb rest d hr.1.1 hr.1.2 hr.2

/-! The digit-splitting loop. -/

theorem extendTopAux_irrel {base : Int} :
    ∀ (f1 : Nat) (f2 : Nat) (t : Int), t.toNat ≤ f1 → t.toNat ≤ f2 →
    extendTopAux base f1 t = extendTopAux base f2 t := by
  intro f1
  induction f1 with
  | zero =>
    intro f2 t h1 h2
    cases f2 with
    | zero => rfl
    | succ n =>
      have ht : t ≤ 0 := by omega
      simp only [extendTopAux]
      rw [if_neg]
      rintro ⟨hb, hbt⟩
      omega
  | succ n ih =>
    intro f2 t h1 h2
    cases f2 with
    | zero =>
      have ht : t ≤ 0 := by omega
      simp only [extendTopAux]
      rw [if_neg]
      rintro ⟨hb, hbt⟩
      omega
    | succ k =>
      simp only [extendTopAux]
      by_cases h : 2 ≤ base ∧ base ≤ t
      · rw [if_pos h, if_pos h]
        have hd1 : t / base < t := by
          apply Int.ediv_lt_of_lt_mul (by omega)
          nlinarith [h.1, h.2]
        have hd2 : 0 ≤ t / base := Int.ediv_nonneg (by omega) (by omega)
        rw [ih k (t / base) (by omega) (by omega)]
      · rw [if_neg h, if_neg h]

theorem extendTop_eq (base t : Int) :
    extendTop base t =
      if 2 ≤ base ∧ base ≤ t then (t % base) :: extendTop base (t / base) else [t] := by
  unfold extendTop
  by_cases h : 2 ≤ base ∧ base ≤ t
  · rw [if_pos h]
    have ht2 : 2 ≤ t := le_trans h.1 h.2
    have hd1 : t / base < t := by
      apply Int.ediv_lt_of_lt_mul (by omega)
      nlinarith [h.1, h.2]
    have hd2 : 0 ≤ t / base := Int.ediv_nonneg (by omega) (by omega)
    have h0 : t.toNat = (t.toNat - 1) + 1 := by omega
    rw [h0]
    simp only [extendTopAux, if_pos h]
    congr 1
    exact extendTopAux_irrel (t.toNat - 1) (t / base).toNat (t / base) (by omega) (le_refl _)
  · rw [if_neg h]
    cases h0 : t.toNat with
    | zero => rfl
    | succ n => simp only [extendTopAux, if_neg h]

theorem extendTop_ne_nil (base t : Int) : extendTop base t ≠ [] := by
  rw [extendTop_eq]
  by_cases h : 2 ≤ base ∧ base ≤ t
  · rw [if_pos h]; simp
  · rw [if_neg h]; simp

theorem extendTop_val {base : Int} (hb : 2 ≤ base) (t : Int) :
    val base (extendTop base t) = t := by
  have H : ∀ (n : Nat) (t : Int), t.toNat ≤ n → val base (extendTop base t) = t := by
    intro n
    induction n with
    | zero =>
      intro t ht
      rw [extendTop_eq, if_neg]
      · simp [val]
      · rintro ⟨h1, h2⟩; omega
    | succ n ih =>
      intro t ht
      rw [extendTop_eq]
      by_cases h : 2 ≤ base ∧ base ≤ t
      · rw [if_pos h]
        have hd1 : t / base < t := by
          apply Int.ediv_lt_of_lt_mul (by omega)
          nlinarith [h.1, h.2]
        have hd2 : 0 ≤ t / base := Int.ediv_nonneg (by omega) (by omega)
        have h3 := ih (t / base) (by omega)
        simp only [val, h3]
        linear_combination Int.ediv_add_emod t base
      · rw [if_neg h]; simp [val]
  exact H t.toNat t (le_refl _)

theorem extendTop_inRange {base : Int} (hb : 2 ≤ base) {t : Int} (ht : 0 ≤ t) :
    InRange base (extendTop base t) := by
  have H : ∀ (n : Nat) (t : Int), t.toNat ≤ n → 0 ≤ t → InRange base (extendTop base t) := by
    intro n
    induction n with
    | zero =>
      intro t htn ht0
      rw [extendTop_eq, if_neg]
      · intro d hd
        simp at hd
        omega
      · rintro ⟨h1, h2⟩; omega
    | succ n ih =>
      intro t htn ht0
      rw [extendTop_eq]
      by_cases h : 2 ≤ base ∧ base ≤ t
      · rw [if_pos h, inRange_cons]
        have hd1 : t / base < t := by
          apply Int.ediv_lt_of_lt_mul (by omega)
          nlinarith [h.1, h.2]
        have hd2 : 0 ≤ t / base := Int.ediv_nonneg (by omega) (by omega)
        exact ⟨⟨Int.emod_nonneg t (by omega), Int.emod_lt_of_pos t (by omega)⟩,
          ih (t / base) (by omega) hd2⟩
      · rw [if_neg h]
        intro d hd
        simp at hd
        constructor
        · omega
        · rcases not_and_or.mp h with h1 | h1 <;> omega
  exact H t.toNat t (le_refl _) ht

theorem extendTop_single {base : Int} (hb : 2 ≤ base) {t : Int} (ht : t < base) :
    extendTop base t = [t] := by
  rw [extendTop_eq, if_neg]
  rintro ⟨h1, h2⟩
  omega

theorem extendTop_getLast_pos {base : Int} (hb : 2 ≤ base) {t : Int} (ht : 1 ≤ t) :
    ∃ u, (extendTop base t).getLast? = some u ∧ 1 ≤ u := by
  have H : ∀ (n : Nat) (t : Int), t.toNat ≤ n → 1 ≤ t →
      ∃ u, (extendTop base t).getLast? = some u ∧ 1 ≤ u := by
    intro n
    induction n with
    | zero => intro t htn ht1; omega
    | succ n ih =>
      intro t htn ht1
      rw [extendTop_eq]
      by_cases h : 2 ≤ base ∧ base ≤ t
      · rw [if_pos h]
        have hd1 : t / base < t := by
          apply Int.ediv_lt_of_lt_mul (by omega)
          nlinarith [h.1, h.2]
        have hd3 : 1 ≤ t / base := by
          rw [Int.le_ediv_iff_mul_le (by omega)]
          omega
        obtain ⟨u, hu1, hu2⟩ := ih (t / base) (by omega) hd3
        refine ⟨u, ?_, hu2⟩
        rw [← hu1]
        cases hc : extendTop base (t / base) with
        | nil => exact absurd hc (extendTop_ne_nil base (t / base))
        | cons a as => rw [List.getLast?_cons_cons]
      · rw [if_neg h]
        exact ⟨t, rfl, ht1⟩
  exact H t.toNat t (le_refl _) ht

/-! Effect of the append-and-reduce while-loop, and the negative fix. -/

theorem attachTop_cons {base d : Int} {l : List Int} (h : l ≠ []) :
    attachTop base (d :: l) = d :: attachTop base l := by
  cases l with
  | nil => exact absurd rfl h
  | cons e rest => rfl

theorem attachTop_append (base : Int) (m : List Int) (t : Int) :
    attachTop base (m ++ [t]) = m ++ extendTop base t := by
  induction m with
  | nil => rfl
  | cons d m ih =>
    rw [List.cons_append, attachTop_cons (by simp), ih]
    rfl

theorem fixTop_cons {base d : Int} {l : List Int} (h : 2 ≤ l.length) :
    fixTop base (d :: l) = d :: fixTop base l := by
  rcases l with _ | ⟨e, _ | ⟨f, rest⟩⟩
  · simp at h
  · simp at h
  · rfl

theorem fixTop_last_two (base : Int) : ∀ (m : List Int) (x t : Int),
    fixTop base (m ++ [x, t]) = m ++ [t % base, 0] := by
  intro m
  induction m with
  | nil => intro x t; rfl
  | cons d m ih =>
    intro x t
    rw [List.cons_append, fixTop_cons (by simp), ih]
    rfl

/-! Characterization of trimmed lists and the normalizer specification. -/

theorem length_dropWhile_le (p : Int → Bool) (m : List Int) :
    (List.dropWhile p m).length ≤ m.length := by
  induction m with
  | nil => simp
  | cons a m ih =>
    rw [List.dropWhile_cons]
    by_cases hp : p a
    · simp only [hp, if_true]
      simp only [List.length_cons]
      omega
    · simp [hp]

theorem head?_dropWhile (p : Int → Bool) :
    ∀ (m : List Int) (a : Int), (List.dropWhile p m).head? = some a → p a = false := by
  intro m
  induction m with
  | nil => intro a h; simp [List.dropWhile] at h
  | cons b m ih =>
    intro a h
    rw [List.dropWhile_cons] at h
    by_cases hp : p b
    · rw [if_pos hp] at h
      exact ih a h
    · rw [if_neg hp] at h
      simp at h
      subst h
      exact Bool.eq_false_iff.mpr hp

theorem dropWhile_eq_self_iff_head (p : Int → Bool) (m : List Int) :
    List.dropWhile p m = m ↔ ∀ a, m.head? = some a → p a = false := by
  cases m with
  | nil => simp [List.dropWhile]
  | cons a m =>
    rw [List.dropWhile_cons]
    by_cases hp : p a
    · rw [if_pos hp]
      constructor
      · intro h
        have h2 := congrArg List.length h
        have h3 := length_dropWhile_le p m
        simp only [List.length_cons] at h2
        omega
      · intro h
        have := h a rfl
        rw [hp] at this
        exact absurd this (by simp)
    · rw [if_neg hp]
      constructor
      · intro _ a2 h2
        simp at h2
        subst h2
        exact Bool.eq_false_iff.mpr hp
      · intro _
        rfl

theorem trimmed_iff {l : List Int} :
    Trimmed l ↔ ∀ t, l.getLast? = some t → t ≠ 0 := by
  have h1 : Trimmed l ↔ List.dropWhile (fun d => d = 0) l.reverse = l.reverse := by
    unfold Trimmed trimBack
    constructor
    · intro h
      have := congrArg List.reverse h
      rwa [List.reverse_reverse] at this
    · intro h
      rw [h, List.reverse_reverse]
  rw [h1, dropWhile_eq_self_iff_head]
  constructor
  · intro h t ht
    rw [List.getLast?_eq_head?_reverse] at ht
    have := h t ht
    simpa using this
  · intro h a ha
    rw [← List.getLast?_eq_head?_reverse] at ha
    have := h a ha
    simpa using this

theorem trimmed_nil : Trimmed ([] : List Int) := rfl

theorem trimmed_trimBack (l : List Int) : Trimmed (trimBack l) := by
  rw [trimmed_iff]
  intro t ht
  rw [List.getLast?_eq_head?_reverse] at ht
  unfold trimBack at ht
  rw [List.reverse_reverse] at ht
  have := head?_dropWhile _ _ _ ht
  simpa using this

theorem getLast?_some_mem {l : List Int} {t : Int} (h : l.getLast? = some t) : t ∈ l := by
  have h2 : t ∈ l.getLast? := h
  obtain ⟨hne, heq⟩ := List.mem_getLast?_eq_getLast h2
  rw [heq]
  exact List.getLast_mem hne

theorem val_pos_of_trimmed {base : Int} {l : List Int} (hb : 0 < base)
    (h : InRange base l) (ht : Trimmed l) (hne : l ≠ []) : 0 < val base l := by
  apply val_pos_of_ne_zero hb h
  have h2 := List.getLast?_eq_getLast l hne
  refine ⟨l.getLast hne, List.getLast_mem hne, ?_⟩
  exact (trimmed_iff.mp ht) _ h2

theorem propogate_eq_some {base : Int} {l : List Int} {t : Int} (neg : Bool)
    (h : (carryLoop base l).getLast? = some t) :
    propogate_carryovers base l neg =
      if t < 0 then (attachTop base (fixTop base (carryLoop base l)), !neg)
      else (attachTop base (carryLoop base l), neg) := by
  unfold propogate_carryovers
  rw [h]

theorem propogate_eq_none {base : Int} {l : List Int} (neg : Bool)
    (h : (carryLoop base l).getLast? = none) :
    propogate_carryovers base l neg = ([0], false) := by
  unfold propogate_carryovers
  rw [h]

theorem propogate_nonneg_spec {base : Int} (hb : 2 ≤ base) {l : List Int} (hl : l ≠ [])
    (hv : 0 ≤ val base l) (neg : Bool) :
    (propogate_carryovers base l neg).2 = neg ∧
    val base (propogate_carryovers base l neg).1 = val base l ∧
    InRange base (propogate_carryovers base l neg).1 ∧
    (propogate_carryovers base l neg).1 ≠ [] := by
  obtain ⟨m, t, h1, h2, h3, h4⟩ := @carryLoop_spec base (by omega) l hl
  have hmnn := val_nonneg h2
  have hmlt := val_lt (by omega : (0:Int) < base) h2
  have hpow : (0:Int) < base ^ m.length := pow_pos (by omega) _
  have htn : 0 ≤ t := by
    by_contra hneg
    push_neg at hneg
    have h6 : t ≤ -1 := by omega
    have h5 : base ^ m.length * t ≤ base ^ m.length * (-1) :=
      mul_le_mul_of_nonneg_left h6 (by positivity)
    nlinarith
  have hgl : (carryLoop base l).getLast? = some t := by
    rw [h1]
    exact List.getLast?_concat m
  have hpe : propogate_carryovers base l neg = (attachTop base (carryLoop base l), neg) := by
    rw [propogate_eq_some neg hgl, if_neg (by omega : ¬ t < 0)]
  rw [hpe, h1, attachTop_append]
  refine ⟨rfl, ?_, ?_, ?_⟩
  · rw [val_append, extendTop_val hb, h3]
  · exact inRange_append.mpr ⟨h2, extendTop_inRange hb htn⟩
  · intro hc
    have := List.append_eq_nil.mp hc
    exact extendTop_ne_nil base t this.2

theorem propogate_id {base : Int} (hb : 2 ≤ base) {l : List Int} (hl : l ≠ [])
    (hr : InRange base l) (neg : Bool) :
    propogate_carryovers base l neg = (l, neg) := by
  have hcl : carryLoop base l = l := carryLoop_id (by omega) hr
  have hgl : (carryLoop base l).getLast? = some (l.getLast hl) := by
    rw [hcl]
    exact List.getLast?_eq_getLast l hl
  have hmem := List.getLast_mem hl
  have hbd := hr _ hmem
  rw [propogate_eq_some neg hgl, if_neg (by omega : ¬ l.getLast hl < 0), hcl]
  have hsplit := List.dropLast_append_getLast hl
  conv_lhs => rw [← hsplit]
  rw [attachTop_append, extendTop_single hb hbd.2, hsplit]

/-! The comparator: digit order agrees with magnitude order. -/

theorem inRange_reverse {base : Int} {l : List Int} (h : InRange base l) :
    InRange base l.reverse := fun d hd => h d (List.mem_reverse.mp hd)

theorem getLast?_cons_of_ne_nil {a : Int} {l : List Int} (h : l ≠ []) :
    (a :: l).getLast? = l.getLast? := by
  cases l with
  | nil => exact absurd rfl h
  | cons b m => exact List.getLast?_cons_cons

theorem trimmed_cons {d : Int} {l : List Int} (h : Trimmed (d :: l)) : Trimmed l := by
  rw [trimmed_iff] at h ⊢
  intro t ht
  apply h t
  have hne : l ≠ [] := by
    intro hc
    rw [hc] at ht
    simp at ht
  rw [getLast?_cons_of_ne_nil hne]
  exact ht

theorem val_ge_pow_of_trimmed {base : Int} (hb : 2 ≤ base) {l : List Int}
    (h : InRange base l) (ht : Trimmed l) (hne : l ≠ []) :
    base ^ (l.length - 1) ≤ val base l := by
  have hsplit := List.dropLast_append_getLast hne
  have hlast := (trimmed_iff.mp ht) _ (List.getLast?_eq_getLast l hne)
  have hmem := List.getLast_mem hne
  have hbd := h _ hmem
  have h1 : 1 ≤ l.getLast hne := by omega
  have hir : InRange base l.dropLast := by
    intro d hd
    apply h
    rw [← hsplit]
    exact List.mem_append.mpr (Or.inl hd)
  have hnn := val_nonneg hir
  have hlen : l.dropLast.length = l.length - 1 := List.length_dropLast l
  calc base ^ (l.length - 1) = base ^ (l.length - 1) * 1 := by ring
    _ ≤ base ^ (l.length - 1) * l.getLast hne := by
        apply mul_le_mul_of_nonneg_left h1 (by positivity)
    _ ≤ val base l.dropLast + base ^ (l.length - 1) * l.getLast hne := by linarith [hnn]
    _ = val base l := by
        conv_rhs => rw [← hsplit]
        rw [val_append, hlen]
        simp [val]

theorem revCmp_refl : ∀ u : List Int, revCmp u u = Ordering.eq := by
  intro u
  induction u with
  | nil => rfl
  | cons a as ih => simp [revCmp, ih]

theorem revCmp_spec {base : Int} (hb : 2 ≤ base) :
    ∀ (u v : List Int), u.length = v.length → InRange base u → InRange base v →
    (revCmp u v = Ordering.lt → val base u.reverse < val base v.reverse) ∧
    (revCmp u v = Ordering.eq → u = v) ∧
    (revCmp u v = Ordering.gt → val base v.reverse < val base u.reverse) := by
  intro u
  induction u with
  | nil =>
    intro v hlen hu hv
    have hv0 : v = [] := by
      cases v with
      | nil => rfl
      | cons b bs => simp at hlen
    subst hv0
    refine ⟨?_, ?_, ?_⟩ <;> intro hc <;> simp [revCmp] at hc
    rfl
  | cons a as ih =>
    intro v hlen hu hv
    cases v with
    | nil => simp at hlen
    | cons b bs =>
      have hlen2 : as.length = bs.length := by simpa using hlen
      rw [inRange_cons] at hu hv
      have ihs := ih bs hlen2 hu.2 hv.2
      have hva : val base (a :: as).reverse = val base as.reverse + base ^ as.length * a := by
        rw [List.reverse_cons, val_append]
        simp [val]
      have hvb : val base (b :: bs).reverse = val base bs.reverse + base ^ bs.length * b := by
        rw [List.reverse_cons, val_append]
        simp [val]
      have hba1 : val base as.reverse < base ^ as.length := by
        have := val_lt (by omega : (0:Int) < base) (inRange_reverse hu.2)
        rwa [List.length_reverse] at this
      have hbb1 : val base bs.reverse < base ^ as.length := by
        have := val_lt (by omega : (0:Int) < base) (inRange_reverse hv.2)
        rwa [List.length_reverse, ← hlen2] at this
      have hba0 : 0 ≤ val base as.reverse := val_nonneg (inRange_reverse hu.2)
      have hbb0 : 0 ≤ val base bs.reverse := val_nonneg (inRange_reverse hv.2)
      have hpow : (0:Int) < base ^ as.length := pow_pos (by omega) _
      by_cases hab : a < b
      · have hstep : base ^ as.length * (a + 1) ≤ base ^ as.length * b :=
          mul_le_mul_of_nonneg_left (by omega) (by positivity)
        refine ⟨fun _ => ?_, fun hc => ?_, fun hc => ?_⟩
        · rw [hva, hvb, ← hlen2]
          nlinarith
        · simp [revCmp, hab] at hc
        · simp [revCmp, hab] at hc
      · by_cases hba : b < a
        · have hstep : base ^ as.length * (b + 1) ≤ base ^ as.length * a :=
            mul_le_mul_of_nonneg_left (by omega) (by positivity)
          refine ⟨fun hc => ?_, fun hc => ?_, fun _ => ?_⟩
          · simp [revCmp, hab, hba] at hc
          · simp [revCmp, hab, hba] at hc
          · rw [hva, hvb, ← hlen2]
            nlinarith
        · have hab2 : a = b := le_antisymm (not_lt.mp hba) (not_lt.mp hab)
          subst hab2
          have hred : revCmp (a :: as) (a :: bs) = revCmp as bs := by
            simp [revCmp, lt_irrefl]
          refine ⟨fun hc => ?_, fun hc => ?_, fun hc => ?_⟩
          · rw [hred] at hc
            have := ihs.1 hc
            rw [hva, hvb, ← hlen2]
            omega
          · rw [hred] at hc
            rw [ihs.2.1 hc]
          · rw [hred] at hc
            have := ihs.2.2 hc
            rw [hva, hvb, ← hlen2]
            omega

theorem get_bigger_smaller_spec {base : Int} (hb : 2 ≤ base) {x y : List Int}
    (hx : InRange base x) (hy : InRange base y)
    (tx : TrimmedOr0 x) (ty : TrimmedOr0 y) :
    (get_bigger_smaller x y = (x, y) ∧ val base y ≤ val base x) ∨
    (get_bigger_smaller x y = (y, x) ∧ val base x ≤ val base y) := by
  unfold get_bigger_smaller
  by_cases h1 : x.length < y.length
  · rw [if_pos h1]
    right
    refine ⟨rfl, ?_⟩
    rcases ty with hyt | hy0
    · have hyne : y ≠ [] := by
        intro hc
        rw [hc] at h1
        simp at h1
      have h2 := val_ge_pow_of_trimmed hb hy hyt hyne
      have h3 := val_lt (by omega : (0:Int) < base) hx
      have h4 : base ^ x.length ≤ base ^ (y.length - 1) := by
        apply pow_le_pow_right (by omega)
        omega
      omega
    · subst hy0
      simp at h1
      have hx0 : x = [] := by
        cases x with
        | nil => rfl
        | cons d ds => simp at h1
      subst hx0
      simp [val]
  · rw [if_neg h1]
    by_cases h2 : x.length = y.length ∧ revCmp x.reverse y.reverse = Ordering.lt
    · rw [if_pos h2]
      right
      refine ⟨rfl, ?_⟩
      have hs := revCmp_spec hb x.reverse y.reverse
        (by simp [h2.1]) (inRange_reverse hx) (inRange_reverse hy)
      have := hs.1 h2.2
      rw [List.reverse_reverse, List.reverse_reverse] at this
      omega
    · rw [if_neg h2]
      left
      refine ⟨rfl, ?_⟩
      rcases Nat.lt_or_ge y.length x.length with h3 | h3
      · rcases tx with hxt | hx0
        · have hxne : x ≠ [] := by
            intro hc
            rw [hc] at h3
            simp at h3
          have h4 := val_ge_pow_of_trimmed hb hx hxt hxne
          have h5 := val_lt (by omega : (0:Int) < base) hy
          have h6 : base ^ y.length ≤ base ^ (x.length - 1) := by
            apply pow_le_pow_right (by omega)
            omega
          omega
        · subst hx0
          simp at h3
          have hy0 : y = [] := by
            cases y with
            | nil => rfl
            | cons d ds => simp at h3
          subst hy0
          simp [val]
      · have hlen : x.length = y.length := by omega
        have hs := revCmp_spec hb x.reverse y.reverse
          (by simp [hlen]) (inRange_reverse hx) (inRange_reverse hy)
        rcases hc : revCmp x.reverse y.reverse with _ | _ | _
        · exact absurd ⟨hlen, hc⟩ h2
        · have := hs.2.1 hc
          have hxy : x = y := by
            have := congrArg List.reverse this
            rwa [List.reverse_reverse, List.reverse_reverse] at this
          rw [hxy]
        · have := hs.2.2 hc
          rw [List.reverse_reverse, List.reverse_reverse] at this
          omega

theorem get_bigger_smaller_cases (x y : List Int) :
    get_bigger_smaller x y = (x, y) ∨ get_bigger_smaller x y = (y, x) := by
  unfold get_bigger_smaller
  by_cases h1 : x.length < y.length
  · rw [if_pos h1]
    right
    rfl
  · rw [if_neg h1]
    by_cases h2 : x.length = y.length ∧ revCmp x.reverse y.reverse = Ordering.lt
    · rw [if_pos h2]
      right
      rfl
    · rw [if_neg h2]
      left
      rfl

theorem get_bigger_smaller_of_eq (x : List Int) :
    get_bigger_smaller x x = (x, x) := by
  unfold get_bigger_smaller
  rw [if_neg (by omega), if_neg]
  rintro ⟨h1, h2⟩
  rw [revCmp_refl] at h2
  exact absurd h2 (by simp)

/-! Uniqueness of the canonical representation. -/

theorem val_inj {base : Int} (hb : 2 ≤ base) :
    ∀ (x y : List Int), InRange base x → InRange base y → Trimmed x → Trimmed y →
    val base x = val base y → x = y := by
  intro x
  induction x with
  | nil =>
    intro y hx hy tx ty hv
    cases y with
    | nil => rfl
    | cons e ys =>
      exfalso
      have h0 : val base (e :: ys) = 0 := by
        rw [← hv]
        rfl
      have hall := val_eq_zero (by omega) hy h0
      have hne : (e :: ys) ≠ [] := by simp
      have hlast := (trimmed_iff.mp ty) _ (List.getLast?_eq_getLast _ hne)
      exact hlast (hall _ (List.getLast_mem hne))
  | cons d xs ih =>
    intro y hx hy tx ty hv
    cases y with
    | nil =>
      exfalso
      have h0 : val base (d :: xs) = 0 := by
        rw [hv]
        rfl
      have hall := val_eq_zero (by omega) hx h0
      have hne : (d :: xs) ≠ [] := by simp
      have hlast := (trimmed_iff.mp tx) _ (List.getLast?_eq_getLast _ hne)
      exact hlast (hall _ (List.getLast_mem hne))
    | cons e ys =>
      rw [inRange_cons] at hx hy
      have hde : d = e := by
        have h1 : (d + base * val base xs) % base = (e + base * val base ys) % base := by
          simp only [val] at hv
          rw [hv]
        rw [Int.add_mul_emod_self_left, Int.add_mul_emod_self_left] at h1
        rw [Int.emod_eq_of_lt hx.1.1 hx.1.2, Int.emod_eq_of_lt hy.1.1 hy.1.2] at h1
        exact h1
      subst hde
      have hvs : val base xs = val base ys := by
        simp only [val] at hv
        have : base * val base xs = base * val base ys := by omega
        exact mul_left_cancel₀ (by omega : base ≠ 0) this
      rw [ih ys hx.2 hy.2 (trimmed_cons tx) (trimmed_cons ty) hvs]

/-! Specification of the sign-aware adder. -/

theorem overlay_length (sub : Bool) : ∀ (s a : List Int), s.length ≤ a.length →
    (overlay sub a s).length = a.length := by
  intro s a h
  unfold overlay
  cases sub <;>
    simp only [Bool.false_eq_true, if_false, if_true, List.length_append,
      List.length_zipWith, List.length_take, List.length_drop] <;>
    omega

theorem overlay_val_add {base : Int} : ∀ (s a : List Int), s.length ≤ a.length →
    val base (overlay false a s) = val base a + val base s := by
  intro s
  induction s with
  | nil =>
    intro a h
    simp [overlay, val]
  | cons u s ih =>
    intro a h
    cases a with
    | nil => simp at h
    | cons w a2 =>
      have h2 : s.length ≤ a2.length := by simpa using h
      have hih := ih a2 h2
      have hstep : overlay false (w :: a2) (u :: s) = (w + u) :: overlay false a2 s := by
        simp [overlay]
      rw [hstep]
      show (w + u) + base * val base (overlay false a2 s) = _
      rw [hih]
      show _ = (w + base * val base a2) + (u + base * val base s)
      ring

theorem overlay_val_sub {base : Int} : ∀ (s a : List Int), s.length ≤ a.length →
    val base (overlay true a s) = val base a - val base s := by
  intro s
  induction s with
  | nil =>
    intro a h
    simp [overlay, val]
  | cons u s ih =>
    intro a h
    cases a with
    | nil => simp at h
    | cons w a2 =>
      have h2 : s.length ≤ a2.length := by simpa using h
      have hih := ih a2 h2
      have hstep : overlay true (w :: a2) (u :: s) = (w - u) :: overlay true a2 s := by
        simp [overlay]
      rw [hstep]
      show (w - u) + base * val base (overlay true a2 s) = _
      rw [hih]
      show _ = (w + base * val base a2) - (u + base * val base s)
      ring

theorem get_bigger_smaller_length (x y : List Int) :
    (get_bigger_smaller x y).2.length ≤ (get_bigger_smaller x y).1.length := by
  unfold get_bigger_smaller
  by_cases h1 : x.length < y.length
  · rw [if_pos h1]
    exact le_of_lt h1
  · rw [if_neg h1]
    by_cases h2 : x.length = y.length ∧ revCmp x.reverse y.reverse = Ordering.lt
    · rw [if_pos h2]
      show x.length ≤ y.length
      omega
    · rw [if_neg h2]
      show y.length ≤ x.length
      omega

theorem add_numbers_eq (base : Int) (n1 : List Int) (neg1 : Bool) (n2 : List Int)
    (neg2 : Bool) :
    add_numbers base n1 neg1 n2 neg2 =
      (trimBack (propogate_carryovers base
          (overlay (neg1 != neg2) (get_bigger_smaller n1 n2).1 (get_bigger_smaller n1 n2).2)
          (if (get_bigger_smaller n1 n2).1 = n1 then neg1 else neg2)).1,
        (propogate_carryovers base
          (overlay (neg1 != neg2) (get_bigger_smaller n1 n2).1 (get_bigger_smaller n1 n2).2)
          (if (get_bigger_smaller n1 n2).1 = n1 then neg1 else neg2)).2) := rfl

theorem add_numbers_same {base : Int} (hb : 2 ≤ base) {x y : List Int} (s : Bool)
    (hx : InRange base x) (hy : InRange base y) (hne : ¬(x = [] ∧ y = [])) :
    (add_numbers base x s y s).2 = s ∧
    val base (add_numbers base x s y s).1 = val base x + val base y ∧
    InRange base (add_numbers base x s y s).1 ∧
    Trimmed (add_numbers base x s y s).1 := by
  have hlen := get_bigger_smaller_length x y
  have hirB : InRange base (get_bigger_smaller x y).1 := by
    rcases get_bigger_smaller_cases x y with hc | hc <;> rw [hc] <;> assumption
  have hirS : InRange base (get_bigger_smaller x y).2 := by
    rcases get_bigger_smaller_cases x y with hc | hc <;> rw [hc] <;> assumption
  have hvBS : val base (get_bigger_smaller x y).1 + val base (get_bigger_smaller x y).2
      = val base x + val base y := by
    rcases get_bigger_smaller_cases x y with hc | hc <;> rw [hc] <;> ring
  have hBne : (get_bigger_smaller x y).1 ≠ [] := by
    intro hB
    have hS0 : (get_bigger_smaller x y).2.length = 0 := by
      rw [hB] at hlen
      simpa using hlen
    have hS : (get_bigger_smaller x y).2 = [] := List.length_eq_zero.mp hS0
    rcases get_bigger_smaller_cases x y with hc | hc <;> rw [hc] at hB hS
    · exact hne ⟨hB, hS⟩
    · exact hne ⟨hS, hB⟩
  have hvc : val base (overlay false (get_bigger_smaller x y).1 (get_bigger_smaller x y).2)
      = val base x + val base y := by
    rw [overlay_val_add _ _ hlen]
    omega
  have hcne : overlay false (get_bigger_smaller x y).1 (get_bigger_smaller x y).2 ≠ [] := by
    intro hc
    have h0 := overlay_length false _ _ hlen
    rw [hc] at h0
    exact hBne (List.length_eq_zero.mp h0.symm)
  have hvnn : 0 ≤ val base (overlay false (get_bigger_smaller x y).1
      (get_bigger_smaller x y).2) := by
    rw [hvc]
    have := val_nonneg hx
    have := val_nonneg hy
    omega
  obtain ⟨hq2, hq1, hqr, hqn⟩ := propogate_nonneg_spec hb hcne hvnn s
  refine ⟨?_, ?_, ?_, ?_⟩
  · rw [add_numbers_eq]
    simp only [bne_self_eq_false, ite_self]
    exact hq2
  · rw [add_numbers_eq]
    simp only [bne_self_eq_false, ite_self]
    rw [trimBack_val, hq1, hvc]
  · rw [add_numbers_eq]
    simp only [bne_self_eq_false, ite_self]
    exact trimBack_inRange hqr
  · rw [add_numbers_eq]
    simp only [bne_self_eq_false, ite_self]
    exact trimmed_trimBack _

theorem overlay_sub_spec {base : Int} (hb : 2 ≤ base) {B S : List Int} (negSel : Bool)
    (hirB : InRange base B) (hirS : InRange base S) (hlen : S.length ≤ B.length)
    (hge : val base S ≤ val base B) :
    val base (propogate_carryovers base (overlay true B S) negSel).1
        = val base B - val base S ∧
    InRange base (propogate_carryovers base (overlay true B S) negSel).1 ∧
    ((propogate_carryovers base (overlay true B S) negSel).2 = negSel ∨ B = []) := by
  by_cases hB : B = []
  · subst hB
    have hS : S = [] := List.length_eq_zero.mp (by simpa using hlen)
    subst hS
    have h0 : overlay true ([] : List Int) [] = [] := rfl
    rw [h0, propogate_eq_none negSel (by rfl)]
    refine ⟨by simp [val], ?_, Or.inr rfl⟩
    intro d hd
    simp at hd
    omega
  · have hcne : overlay true B S ≠ [] := by
      intro hc
      have h0 := overlay_length true _ _ hlen
      rw [hc] at h0
      exact hB (List.length_eq_zero.mp h0.symm)
    have hv : val base (overlay true B S) = val base B - val base S :=
      overlay_val_sub S B hlen
    obtain ⟨hq2, hq1, hqr, hqn⟩ := propogate_nonneg_spec hb hcne (by omega) negSel
    exact ⟨by rw [hq1, hv], hqr, Or.inl hq2⟩

theorem add_numbers_diff {base : Int} (hb : 2 ≤ base) {x y : List Int} {s1 s2 : Bool}
    (hs : s1 ≠ s2) (hx : InRange base x) (hy : InRange base y)
    (tx : TrimmedOr0 x) (ty : TrimmedOr0 y) :
    InRange base (add_numbers base x s1 y s2).1 ∧
    Trimmed (add_numbers base x s1 y s2).1 ∧
    (if (add_numbers base x s1 y s2).2 then (-1 : Int) else 1) *
        val base (add_numbers base x s1 y s2).1
      = (if s1 then (-1 : Int) else 1) * val base x +
        (if s2 then (-1 : Int) else 1) * val base y := by
  have hbne : (s1 != s2) = true := bne_iff_ne.mpr hs
  have hlen := get_bigger_smaller_length x y
  rcases get_bigger_smaller_spec hb hx hy tx ty with ⟨hc, hle⟩ | ⟨hc, hle⟩
  · -- bigger is the first operand
    rw [hc] at hlen
    obtain ⟨hv, hir, hsgn⟩ := overlay_sub_spec hb
      (if ((x : List Int), y).1 = x then s1 else s2) hx hy hlen hle
    rw [add_numbers_eq, hbne, hc]
    refine ⟨trimBack_inRange hir, trimmed_trimBack _, ?_⟩
    rw [trimBack_val, hv]
    rcases hsgn with hsgn | hBnil
    · rw [hsgn]
      simp only [if_pos rfl]
      cases s1 <;> cases s2 <;> simp at hs ⊢ <;> ring
    · have hvx : val base x = 0 := by rw [hBnil]; rfl
      have hvy : val base y = 0 := le_antisymm (by omega) (val_nonneg hy)
      rw [hvx, hvy]
      cases s1 <;> cases s2 <;> simp at hs ⊢ <;> ring
  · -- bigger is the second operand
    rw [hc] at hlen
    obtain ⟨hv, hir, hsgn⟩ := overlay_sub_spec hb
      (if ((y : List Int), x).1 = x then s1 else s2) hy hx hlen hle
    rw [add_numbers_eq, hbne, hc]
    refine ⟨trimBack_inRange hir, trimmed_trimBack _, ?_⟩
    rw [trimBack_val, hv]
    by_cases hyx : y = x
    · subst hyx
      cases s1 <;> cases s2 <;> simp at hs ⊢ <;> ring
    · rcases hsgn with hsgn | hBnil
      · rw [hsgn]
        rw [if_neg (show ¬(((y : List Int), x).1 = x) from hyx)]
        cases s1 <;> cases s2 <;> simp at hs ⊢ <;> ring
      · have hvy : val base y = 0 := by rw [hBnil]; rfl
        have hvx : val base x = 0 := le_antisymm (by omega) (val_nonneg hx)
        rw [hvx, hvy]
        cases s1 <;> cases s2 <;> simp at hs ⊢ <;> ring

/-! Helper facts for the multiplier proof. -/

theorem val_map_scalar (base k : Int) : ∀ l : List Int,
    val base (l.map (fun d => d * k)) = val base l * k := by
  intro l
  induction l with
  | nil => simp [val]
  | cons d l ih =>
    simp only [List.map_cons, val, ih]
    ring

theorem val_zeros_append (base : Int) (k : Nat) (l : List Int) :
    val base (List.replicate k 0 ++ l) = base ^ k * val base l := by
  rw [val_append, val_replicate_zero, List.length_replicate]
  ring

theorem inRange_take {base : Int} {l : List Int} (h : InRange base l) (m : Nat) :
    InRange base (l.take m) := fun d hd => h d (List.mem_of_mem_take hd)

theorem inRange_drop {base : Int} {l : List Int} (h : InRange base l) (m : Nat) :
    InRange base (l.drop m) := fun d hd => h d (List.mem_of_mem_drop hd)

theorem inRange_replicate_append {base : Int} (hb : 0 < base) {l : List Int}
    (h : InRange base l) (k : Nat) : InRange base (List.replicate k 0 ++ l) :=
  inRange_append.mpr ⟨inRange_replicate_zero hb k, h⟩

theorem getLast?_append_right {A B : List Int} (h : B ≠ []) :
    (A ++ B).getLast? = B.getLast? := by
  induction A with
  | nil => rfl
  | cons a A ih =>
    rw [List.cons_append, getLast?_cons_of_ne_nil, ih]
    intro hc
    rcases List.append_eq_nil.mp hc with ⟨_, h2⟩
    exact h h2

theorem trimmed_drop {l : List Int} (h : Trimmed l) (m : Nat) : Trimmed (l.drop m) := by
  rw [trimmed_iff]
  intro t ht
  have hne : l.drop m ≠ [] := by
    intro hc
    rw [hc] at ht
    simp at ht
  have hsplit : l.take m ++ l.drop m = l := List.take_append_drop m l
  have h2 : l.getLast? = some t := by
    rw [← hsplit, getLast?_append_right hne]
    exact ht
  exact (trimmed_iff.mp h) t h2

theorem trimmed_val_zero {base : Int} (hb : 2 ≤ base) {l : List Int}
    (hir : InRange base l) (ht : Trimmed l) (hv : val base l = 0) : l = [] := by
  by_contra hne
  have := val_ge_pow_of_trimmed hb hir ht hne
  have hp : (0:Int) < base ^ (l.length - 1) := pow_pos (by omega) _
  omega

theorem trimmedOr0_big {l : List Int} (h : TrimmedOr0 l) (hlen : 2 ≤ l.length) :
    Trimmed l := by
  rcases h with h | h
  · exact h
  · rw [h] at hlen
    simp at hlen

theorem propogate_trimmed_of_big {base : Int} (hb : 2 ≤ base) {l : List Int} (hl : l ≠ [])
    (hv : base ^ (l.length - 1) ≤ val base l) (neg : Bool) :
    Trimmed (propogate_carryovers base l neg).1 := by
  obtain ⟨m, t, h1, h2, h3, h4⟩ := @carryLoop_spec base (by omega) l hl
  have hmlt := val_lt (by omega : (0:Int) < base) h2
  have hml : m.length = l.length - 1 := by omega
  have hpow : (0:Int) < base ^ m.length := pow_pos (by omega) _
  have ht1 : 1 ≤ t := by
    by_contra hc
    push_neg at hc
    have h5 : t ≤ 0 := by omega
    have h6 : base ^ m.length * t ≤ 0 := mul_nonpos_of_nonneg_of_nonpos (by positivity) h5
    rw [hml] at hmlt
    omega
  have hgl : (carryLoop base l).getLast? = some t := by
    rw [h1]
    exact List.getLast?_concat m
  rw [propogate_eq_some neg hgl, if_neg (by omega : ¬ t < 0)]
  show Trimmed (attachTop base (carryLoop base l))
  rw [h1, attachTop_append]
  rw [trimmed_iff]
  intro u hu
  obtain ⟨w, hw1, hw2⟩ := extendTop_getLast_pos hb ht1
  rw [getLast?_append_right (extendTop_ne_nil base t), hw1] at hu
  have : w = u := by injection hu
  omega

theorem scalar_case_spec {base : Int} (hb : 2 ≤ base) {l : List Int} {k : Int}
    (hl : InRange base l) (tl : TrimmedOr0 l) (hk0 : 0 ≤ k) :
    MulSpec base (propogate_carryovers base (l.map (fun d => d * k)) false)
      (val base l * k) := by
  by_cases hnil : l = []
  · subst hnil
    rw [propogate_eq_none false (by rfl)]
    refine ⟨rfl, by simp [val], ?_, by simp, ?_⟩
    · intro d hd
      simp at hd
      omega
    · intro hvne
      exact absurd (by simp [val]) hvne
  · have hmne : l.map (fun d => d * k) ≠ [] := by
      intro hc
      exact hnil (List.map_eq_nil.mp hc)
    have hval : val base (l.map (fun d => d * k)) = val base l * k := val_map_scalar base k l
    have hnn : 0 ≤ val base (l.map (fun d => d * k)) := by
      rw [hval]
      exact mul_nonneg (val_nonneg hl) hk0
    obtain ⟨s1, s2, s3, s4⟩ := propogate_nonneg_spec hb hmne hnn false
    refine ⟨s1, by rw [s2, hval], s3, s4, ?_⟩
    intro hvne
    have hk1 : 1 ≤ k := by
      rcases lt_or_eq_of_le hk0 with h | h
      · omega
      · exact absurd (by rw [← h]; ring) hvne
    have hvl : val base l ≠ 0 := by
      intro hc
      exact hvne (by rw [hc]; ring)
    have htl : Trimmed l := by
      rcases tl with h | h
      · exact h
      · exfalso
        apply hvl
        rw [h]
        simp [val]
    have hge := val_ge_pow_of_trimmed hb hl htl hnil
    apply propogate_trimmed_of_big hb hmne ?_ false
    rw [hval, List.length_map]
    have h1 : val base l * 1 ≤ val base l * k :=
      mul_le_mul_of_nonneg_left hk1 (val_nonneg hl)
    omega

/-! Sign of a magnitude difference, and the Karatsuba recombination. -/

theorem add_numbers_diff_sign {base : Int} (hb : 2 ≤ base) {x y : List Int} {s1 s2 : Bool}
    (hs : s1 ≠ s2) (hx : InRange base x) (hy : InRange base y)
    (tx : Trimmed x) (ty : Trimmed y) (hxne : x ≠ []) (hge : val base y ≤ val base x) :
    (add_numbers base x s1 y s2).2 = s1 := by
  have hbne : (s1 != s2) = true := bne_iff_ne.mpr hs
  rcases get_bigger_smaller_spec hb hx hy (Or.inl tx) (Or.inl ty) with ⟨hc, hle⟩ | ⟨hc, hle⟩
  · have hlen := get_bigger_smaller_length x y
    rw [hc] at hlen
    obtain ⟨hv, hir, hsgn⟩ := overlay_sub_spec hb
      (if ((x : List Int), y).1 = x then s1 else s2) hx hy hlen hle
    rw [add_numbers_eq, hbne, hc]
    rcases hsgn with h | h
    · rw [h]
      simp
    · exact absurd h hxne
  · have hveq : val base x = val base y := le_antisymm hle hge
    have hxy : x = y := val_inj hb x y hx hy tx ty hveq
    subst hxy
    have hlen := get_bigger_smaller_length x x
    rw [hc] at hlen
    obtain ⟨hv, hir, hsgn⟩ := overlay_sub_spec hb
      (if ((x : List Int), x).1 = x then s1 else s2) hx hx hlen (le_refl _)
    rw [add_numbers_eq, hbne, hc]
    rcases hsgn with h | h
    · rw [h]
      simp
    · exact absurd h hxne

theorem karatsubaCombine_spec {base : Int} (hb : 2 ≤ base) {m : Nat} (hm : 1 ≤ m)
    {z2 z0 z1 : List Int × Bool} {v2 v0 v1 : Int}
    (h2 : MulSpec base z2 v2) (h0 : MulSpec base z0 v0) (h1 : MulSpec base z1 v1)
    (hv2 : 0 ≤ v2) (hv0 : 0 ≤ v0) (hv1 : 1 ≤ v1) (hge : v2 + v0 ≤ v1) :
    MulSpec base (karatsubaCombine base m z2 z0 z1)
      (base ^ (2 * m) * v2 + v0 + base ^ m * (v1 - v2 - v0)) := by
  obtain ⟨l2, s2⟩ := z2
  obtain ⟨l0, s0⟩ := z0
  obtain ⟨l1, s1⟩ := z1
  obtain ⟨h2s, h2v, h2r, h2n, h2t⟩ := h2
  obtain ⟨h0s, h0v, h0r, h0n, h0t⟩ := h0
  obtain ⟨h1s, h1v, h1r, h1n, h1t⟩ := h1
  replace h2s : s2 = false := h2s
  replace h0s : s0 = false := h0s
  replace h1s : s1 = false := h1s
  subst h2s
  subst h0s
  subst h1s
  replace h2v : val base l2 = v2 := h2v
  replace h0v : val base l0 = v0 := h0v
  replace h1v : val base l1 = v1 := h1v
  replace h2r : InRange base l2 := h2r
  replace h0r : InRange base l0 := h0r
  replace h1r : InRange base l1 := h1r
  replace h2n : l2 ≠ [] := h2n
  replace h1n : l1 ≠ [] := h1n
  replace h1t : v1 ≠ 0 → Trimmed l1 := h1t
  have hkc : karatsubaCombine base m (l2, false) (l0, false) (l1, false) =
      add_numbers base
        (add_numbers base (List.replicate (2 * m) 0 ++ l2) false l0 false).1
        (add_numbers base (List.replicate (2 * m) 0 ++ l2) false l0 false).2
        (List.replicate m 0 ++
          (add_numbers base l1 false (add_numbers base l2 false l0 false).1
            (!(add_numbers base l2 false l0 false).2)).1)
        (add_numbers base l1 false (add_numbers base l2 false l0 false).1
          (!(add_numbers base l2 false l0 false).2)).2 := rfl
  rw [hkc]
  obtain ⟨A2, Av, Ar, At⟩ :=
    add_numbers_same hb false h2r h0r (fun hcc => h2n hcc.1)
  have hA2 : (!(add_numbers base l2 false l0 false).2) = true := by rw [A2]; rfl
  rw [hA2]
  have hAv : val base (add_numbers base l2 false l0 false).1 = v2 + v0 := by
    rw [Av, h2v, h0v]
  have hTl1 : Trimmed l1 := h1t (by omega)
  obtain ⟨Mr, Mt, Msgn⟩ := add_numbers_diff hb
    (show (false : Bool) ≠ true by simp) h1r Ar (Or.inl hTl1) (Or.inl At)
  have Ms : (add_numbers base l1 false
      (add_numbers base l2 false l0 false).1 true).2 = false :=
    add_numbers_diff_sign hb (show (false : Bool) ≠ true by simp) h1r Ar hTl1 At h1n
      (by rw [hAv, h1v]; omega)
  rw [Ms]
  have Mv : val base (add_numbers base l1 false
      (add_numbers base l2 false l0 false).1 true).1 = v1 - (v2 + v0) := by
    rw [Ms] at Msgn
    replace Msgn : 1 * val base (add_numbers base l1 false
          (add_numbers base l2 false l0 false).1 true).1
        = 1 * val base l1 +
          (-1) * val base (add_numbers base l2 false l0 false).1 := Msgn
    rw [hAv, h1v] at Msgn
    linarith only [Msgn]
  obtain ⟨E2, Ev, Er, Et⟩ :=
    add_numbers_same hb false (inRange_replicate_append (by omega) h2r (2 * m)) h0r
      (fun hcc => h2n (List.append_eq_nil.mp hcc.1).2)
  rw [E2]
  have hEv : val base (add_numbers base (List.replicate (2 * m) 0 ++ l2) false l0 false).1
      = base ^ (2 * m) * v2 + v0 := by
    rw [Ev, val_zeros_append, h2v, h0v]
  have hMirn : InRange base (List.replicate m 0 ++
      (add_numbers base l1 false (add_numbers base l2 false l0 false).1 true).1) :=
    inRange_replicate_append (by omega) Mr m
  have hMne : List.replicate m 0 ++
      (add_numbers base l1 false (add_numbers base l2 false l0 false).1 true).1 ≠ [] := by
    intro hcc
    have := (List.append_eq_nil.mp hcc).1
    rw [List.replicate_eq_nil] at this
    omega
  obtain ⟨F2, Fv, Fr, Ft⟩ :=
    add_numbers_same hb false Er hMirn (fun hcc => hMne hcc.2)
  have hFv : val base (add_numbers base
      (add_numbers base (List.replicate (2 * m) 0 ++ l2) false l0 false).1 false
      (List.replicate m 0 ++
        (add_numbers base l1 false (add_numbers base l2 false l0 false).1 true).1)
      false).1
      = base ^ (2 * m) * v2 + v0 + base ^ m * (v1 - v2 - v0) := by
    rw [Fv, hEv, val_zeros_append, Mv]
    ring
  have hVpos : 1 ≤ base ^ (2 * m) * v2 + v0 + base ^ m * (v1 - v2 - v0) := by
    have hp1 : (0:Int) < base ^ (2 * m) := pow_pos (by omega) _
    have hp2 : (0:Int) < base ^ m := pow_pos (by omega) _
    have hM0 : 0 ≤ v1 - v2 - v0 := by omega
    have e1 : 0 ≤ (base ^ (2 * m) - 1) * v2 := mul_nonneg (by omega) hv2
    have e2 : 0 ≤ (base ^ m - 1) * (v1 - v2 - v0) := mul_nonneg (by omega) hM0
    linarith only [e1, e2, hv0, hv1, hv2, hge, hM0]
  refine ⟨F2, hFv, Fr, ?_, fun _ => Ft⟩
  intro hcc
  rw [hcc] at hFv
  have h00 : val base ([] : List Int) = 0 := rfl
  rw [h00] at hFv
  linarith only [hFv, hVpos]

/-! Correctness of one multiplier step and of the full recursion. -/

theorem val_take_drop (base : Int) (l : List Int) (m : Nat) :
    val base l = val base (l.take m) + base ^ (l.take m).length * val base (l.drop m) := by
  conv_lhs => rw [← List.take_append_drop m l]
  rw [val_append]

theorem mulStep_spec {base : Int} (hb : 2 ≤ base)
    (recur : List Int → List Int → List Int × Bool) {x y : List Int}
    (hyx : y.length ≤ x.length)
    (hx : InRange base x) (hy : InRange base y) (tx : TrimmedOr0 x) (ty : TrimmedOr0 y)
    (hrec : ∀ u v : List Int, InRange base u → InRange base v →
      TrimmedOr0 u → TrimmedOr0 v →
      val base u + val base v + 1 ≤ val base x + val base y →
      MulSpec base (recur u v) (val base u * val base v)) :
    MulSpec base (mulStep base recur x y) (val base x * val base y) := by
  by_cases h1 : x.length = 1
  · obtain ⟨k, hk⟩ := List.length_eq_one.mp h1
    subst hk
    have hk0 := hx k (by simp)
    have hstep : mulStep base recur [k] y =
        propogate_carryovers base (y.map (fun d => d * k)) false := by
      unfold mulStep
      rw [if_pos (show ([k] : List Int).length = 1 from rfl)]
      rfl
    rw [hstep, show val base [k] * val base y = val base y * k from by simp [val]; ring]
    exact scalar_case_spec hb hy ty hk0.1
  · by_cases h2 : y.length = 1
    · obtain ⟨e, he⟩ := List.length_eq_one.mp h2
      subst he
      have he0 := hy e (by simp)
      have hstep : mulStep base recur x [e] =
          propogate_carryovers base (x.map (fun d => d * e)) false := by
        unfold mulStep
        rw [if_neg h1, if_pos (show ([e] : List Int).length = 1 from rfl)]
        rfl
      rw [hstep, show val base x * val base [e] = val base x * e from by simp [val]]
      exact scalar_case_spec hb hx tx he0.1
    · by_cases h3 : x.length = 0 ∨ y.length = 0
      · have hv0 : val base x * val base y = 0 := by
          rcases h3 with h | h
          · rw [List.length_eq_zero.mp h]
            simp [val]
          · rw [List.length_eq_zero.mp h]
            simp [val]
        have hstep : mulStep base recur x y = ([0], false) := by
          unfold mulStep
          rw [if_neg h1, if_neg h2, if_pos h3]
        rw [hstep, hv0]
        refine ⟨rfl, by simp [val], ?_, by simp, fun hcc => absurd rfl hcc⟩
        intro d hd
        simp at hd
        omega
      · have hlens := not_or.mp h3
        have hxlen : 2 ≤ x.length := by omega
        have hylen : 2 ≤ y.length := by omega
        have hTx : Trimmed x := trimmedOr0_big tx hxlen
        have hTy : Trimmed y := trimmedOr0_big ty hylen
        set m := x.length / 2 with hm
        have hm1 : 1 ≤ m := by omega
        have hmlt : m < x.length := by omega
        set a := x.drop m with ha
        set b := trimBack (x.take m) with hbdef
        set c := y.drop m with hcdef
        set d := trimBack (y.take m) with hddef
        have hira : InRange base a := inRange_drop hx m
        have hirb : InRange base b := trimBack_inRange (inRange_take hx m)
        have hirc : InRange base c := inRange_drop hy m
        have hird : InRange base d := trimBack_inRange (inRange_take hy m)
        have hTa : Trimmed a := trimmed_drop hTx m
        have hTc : Trimmed c := trimmed_drop hTy m
        have hTb : Trimmed b := trimmed_trimBack _
        have hTd : Trimmed d := trimmed_trimBack _
        have halen : a.length = x.length - m := by rw [ha, List.length_drop]
        have hane : a ≠ [] := by
          intro hcontra
          rw [hcontra] at halen
          simp at halen
          omega
        have htdx := val_take_drop base x m
        rw [List.length_take, min_eq_left (le_of_lt hmlt)] at htdx
        have hvbx : val base x = val base b + base ^ m * val base a := by
          rw [hbdef, trimBack_val]
          exact htdx
        have hvdy : val base y = val base d + base ^ m * val base c := by
          by_cases hmy : m < y.length
          · have htdy := val_take_drop base y m
            rw [List.length_take, min_eq_left (le_of_lt hmy)] at htdy
            rw [hddef, trimBack_val]
            exact htdy
          · have hc0 : c = [] := by
              have hcl : c.length = 0 := by
                rw [hcdef, List.length_drop]
                omega
              exact List.length_eq_zero.mp hcl
            have ht0 : y.take m = y := by
              have h4 := List.take_append_drop m y
              rw [← hcdef, hc0, List.append_nil] at h4
              exact h4
            rw [hddef, ht0, trimBack_val, hc0]
            simp [val]
        have hva1 : 1 ≤ val base a := val_pos_of_trimmed (by omega) hira hTa hane
        have hvb0 : 0 ≤ val base b := val_nonneg hirb
        have hvc0 : 0 ≤ val base c := val_nonneg hirc
        have hvd0 : 0 ≤ val base d := val_nonneg hird
        have hpm : (2:Int) ≤ base ^ m := by
          calc (2:Int) ≤ base := hb
            _ = base ^ 1 := (pow_one base).symm
            _ ≤ base ^ m := pow_le_pow_right (by omega) hm1
        have hyne : y ≠ [] := by
          intro hcontra
          rw [hcontra] at hylen
          simp at hylen
        have hvy1 : 0 < val base y := val_pos_of_trimmed (by omega) hy hTy hyne
        have key1 : val base a + val base c + 1 ≤ val base x + val base y := by
          have e1 : 2 * val base a ≤ base ^ m * val base a :=
            mul_le_mul_of_nonneg_right hpm (by omega)
          have e2 : val base c ≤ base ^ m * val base c := by
            have e3 : 1 * val base c ≤ base ^ m * val base c :=
              mul_le_mul_of_nonneg_right (by omega) hvc0
            linarith only [e3]
          linarith only [hvbx, hvdy, e1, e2, hva1, hvb0, hvd0]
        have key0 : val base b + val base d + 1 ≤ val base x + val base y := by
          have e1 : 2 * val base a ≤ base ^ m * val base a :=
            mul_le_mul_of_nonneg_right hpm (by omega)
          have e2 : 0 ≤ base ^ m * val base c :=
            mul_nonneg (by positivity) hvc0
          linarith only [hvbx, hvdy, e1, e2, hva1, hvd0]
        have z2spec := hrec a c hira hirc (Or.inl hTa) (Or.inl hTc) key1
        have z0spec := hrec b d hirb hird (Or.inl hTb) (Or.inl hTd) key0
        obtain ⟨ab2, abv, abr, abt⟩ :=
          add_numbers_same hb false hira hirb (fun hcc => hane hcc.1)
        have hnecd : ¬(c = [] ∧ d = []) := by
          rintro ⟨hc1, hd1⟩
          rw [hc1, hd1] at hvdy
          simp [val] at hvdy
          omega
        obtain ⟨cd2, cdv, cdr, cdt⟩ := add_numbers_same hb false hirc hird hnecd
        have hvcd1 : 1 ≤ val base c + val base d := by
          by_contra hcontra
          push_neg at hcontra
          have hcc0 : val base c = 0 := by omega
          have hdd0 : val base d = 0 := by omega
          rw [hcc0, hdd0] at hvdy
          simp at hvdy
          omega
        have key5 : val base (add_numbers base a false b false).1 +
            val base (add_numbers base c false d false).1 + 1
            ≤ val base x + val base y := by
          rw [abv, cdv]
          have e1 : 2 * val base a ≤ base ^ m * val base a :=
            mul_le_mul_of_nonneg_right hpm (by omega)
          have e2 : val base c ≤ base ^ m * val base c := by
            have e3 : 1 * val base c ≤ base ^ m * val base c :=
              mul_le_mul_of_nonneg_right (by omega) hvc0
            linarith only [e3]
          linarith only [hvbx, hvdy, e1, e2, hva1]
        have z1spec := hrec (add_numbers base a false b false).1
          (add_numbers base c false d false).1 abr cdr (Or.inl abt) (Or.inl cdt) key5
        rw [abv, cdv] at z1spec
        have hstep : mulStep base recur x y = karatsubaCombine base m (recur a c)
            (recur b d) (recur (add_numbers base a false b false).1
              (add_numbers base c false d false).1) := by
          unfold mulStep
          rw [if_neg h1, if_neg h2, if_neg h3, ← hm, ← ha, ← hbdef, ← hcdef, ← hddef]
        have h11 : (1:Int) * 1 ≤ (val base a + val base b) * (val base c + val base d) :=
          mul_le_mul (by omega) (by omega) (by omega) (by omega)
        have had : 0 ≤ val base a * val base d := mul_nonneg (by omega) hvd0
        have hbc : 0 ≤ val base b * val base c := mul_nonneg hvb0 hvc0
        have hcs := karatsubaCombine_spec hb hm1 z2spec z0spec z1spec
          (mul_nonneg (by omega) hvc0) (mul_nonneg hvb0 hvd0)
          (by linarith only [h11])
          (by nlinarith only [had, hbc])
        have hvv : base ^ (2 * m) * (val base a * val base c) + val base b * val base d
            + base ^ m * ((val base a + val base b) * (val base c + val base d)
              - val base a * val base c - val base b * val base d)
            = val base x * val base y := by
          rw [hvbx, hvdy]
          ring
        rw [hstep, ← hvv]
        exact hcs

theorem mulFuelRec_spec {base : Int} (hb : 2 ≤ base) :
    ∀ (n : Nat) (x y : List Int), InRange base x → InRange base y →
      TrimmedOr0 x → TrimmedOr0 y →
      val base x + val base y < (n : Int) →
      MulSpec base (mulFuelRec base n x y) (val base x * val base y) := by
  intro n
  induction n with
  | zero =>
    intro x y hx hy tx ty hlt
    have h1 := val_nonneg hx
    have h2 := val_nonneg hy
    norm_num at hlt
    linarith only [h1, h2, hlt]
  | succ n ih =>
    intro x y hx hy tx ty hlt
    have hcast : ((n + 1 : Nat) : Int) = (n : Int) + 1 := by push_cast; ring
    rw [hcast] at hlt
    have hunfold : mulFuelRec base (n + 1) x y =
        if x.length < y.length then mulStep base (mulFuelRec base n) y x
        else mulStep base (mulFuelRec base n) x y := rfl
    rw [hunfold]
    by_cases hsw : x.length < y.length
    · rw [if_pos hsw]
      have hspec := mulStep_spec hb (mulFuelRec base n) (le_of_lt hsw) hy hx ty tx ?_
      · rw [show val base x * val base y = val base y * val base x from mul_comm _ _]
        exact hspec
      · intro u v hu hv tu tv hle
        exact ih u v hu hv tu tv (by linarith only [hle, hlt])
    · rw [if_neg hsw]
      have hyx : y.length ≤ x.length := by omega
      apply mulStep_spec hb (mulFuelRec base n) hyx hx hy tx ty
      intro u v hu hv tu tv hle
      exact ih u v hu hv tu tv (by linarith only [hle, hlt])

theorem multiply_numbers_spec {base : Int} (hb : 2 ≤ base) {x y : List Int}
    (hx : InRange base x) (hy : InRange base y)
    (tx : TrimmedOr0 x) (ty : TrimmedOr0 y) :
    MulSpec base (multiply_numbers base x y) (val base x * val base y) := by
  have h1 := val_nonneg hx
  have h2 := val_nonneg hy
  apply mulFuelRec_spec hb (mulFuel base x y) x y hx hy tx ty
  unfold mulFuel
  push_cast
  omega

/-! Construction of Values: normalization tail, array and integer input. -/

theorem trimBack_eq_nil_all_zero {l : List Int} (h : trimBack l = []) :
    ∀ d ∈ l, d = 0 := by
  intro d hd
  rw [trimBack_spec l, h, List.nil_append] at hd
  exact List.eq_of_mem_replicate hd

theorem val_all_zero {base : Int} : ∀ {l : List Int}, (∀ d ∈ l, d = 0) →
    val base l = 0 := by
  intro l
  induction l with
  | nil => intro _; rfl
  | cons d l ih =>
    intro h
    have hd : d = 0 := h d (by simp)
    have hl : val base l = 0 := ih (fun e he => h e (by simp [he]))
    simp [val, hd, hl]

theorem trimTop_val (base : Int) (l : List Int) : val base (trimTop l) = val base l := by
  unfold trimTop
  by_cases h : trimBack l = []
  · rw [if_pos h]
    have hz := trimBack_eq_nil_all_zero h
    rw [val_all_zero (fun d hd => hz d (List.mem_of_mem_take hd)),
      val_all_zero hz]
  · rw [if_neg h]
    exact trimBack_val base l

theorem trimTop_canon {base : Int} (hb : 0 < base) {l : List Int} (hl : l ≠ [])
    (hir : InRange base l) :
    trimTop l ≠ [] ∧ InRange base (trimTop l) ∧ TrimmedOr0 (trimTop l) := by
  unfold trimTop
  by_cases h : trimBack l = []
  · rw [if_pos h]
    have hz := trimBack_eq_nil_all_zero h
    cases l with
    | nil => exact absurd rfl hl
    | cons d rest =>
      have hd : d = 0 := hz d (by simp)
      have ht1 : (d :: rest).take 1 = [d] := rfl
      rw [ht1, hd]
      refine ⟨by simp, ?_, Or.inr rfl⟩
      intro e he
      simp at he
      omega
  · rw [if_neg h]
    exact ⟨h, trimBack_inRange hir, Or.inl (trimmed_trimBack l)⟩

theorem trimTop_id_of_canon {l : List Int} (hne : l ≠ []) (ht : TrimmedOr0 l) :
    trimTop l = l := by
  unfold trimTop
  rcases ht with ht | ht
  · rw [ht, if_neg hne]
  · subst ht
    rfl

theorem initFinish_spec {base : Int} (hb : 2 ≤ base) {ds : List Int} (hne : ds ≠ [])
    (hv : 0 ≤ val base ds) (neg : Bool) (st : NpDType) :
    (initFinish base ds neg st).base = base ∧
    (initFinish base ds neg st).negative = neg ∧
    (initFinish base ds neg st).store = st ∧
    val base (initFinish base ds neg st).number = val base ds ∧
    Canon (initFinish base ds neg st) := by
  obtain ⟨p2, p1, pr, pn⟩ := propogate_nonneg_spec hb hne hv neg
  obtain ⟨c1, c2, c3⟩ := trimTop_canon (by omega) pn pr
  refine ⟨rfl, ?_, rfl, ?_, ?_⟩
  · exact p2
  · show val base (trimTop (propogate_carryovers base ds neg).1) = val base ds
    rw [trimTop_val, p1]
  · exact ⟨c1, c2, c3⟩

theorem fromArray_spec {base : Int} (hb : 2 ≤ base) (ds : List Int)
    (hv : 0 ≤ val base ds) (neg : Bool) (st : NpDType) :
    (fromArray base ds neg st).base = base ∧
    (fromArray base ds neg st).negative = neg ∧
    (fromArray base ds neg st).store = st ∧
    val base (fromArray base ds neg st).number = val base ds ∧
    Canon (fromArray base ds neg st) := by
  unfold fromArray
  by_cases h : ds.length < 1
  · rw [if_pos h]
    have hds : ds = [] := List.length_eq_zero.mp (by omega)
    have h0 : val base ds = 0 := by rw [hds]; rfl
    have hspec := initFinish_spec hb (show [(0:Int)] ≠ [] by simp)
      (show 0 ≤ val base [0] by simp [val]) neg st
    refine ⟨hspec.1, hspec.2.1, hspec.2.2.1, ?_, hspec.2.2.2.2⟩
    rw [hspec.2.2.2.1, h0]
    simp [val]
  · rw [if_neg h]
    have hne : ds ≠ [] := by
      intro hc
      rw [hc] at h
      simp at h
    exact initFinish_spec hb hne hv neg st

theorem fromArray_canon_id {base : Int} (hb : 2 ≤ base) {l : List Int} (hne : l ≠ [])
    (hir : InRange base l) (ht : TrimmedOr0 l) (neg : Bool) (st : NpDType) :
    fromArray base l neg st = ⟨l, base, neg, st⟩ := by
  unfold fromArray initFinish
  rw [if_neg (show ¬ l.length < 1 by
    have := List.length_pos.mpr hne
    omega)]
  rw [propogate_id hb hne hir neg]
  show BBI.mk (trimTop l) base neg st = ⟨l, base, neg, st⟩
  rw [trimTop_id_of_canon hne ht]

theorem intDigits_spec {base : Int} (hb : 2 ≤ base) {x : Int} (hx : 0 ≤ x) :
    val base (intDigits base x) = x ∧ InRange base (intDigits base x) ∧
    intDigits base x ≠ [] ∧ TrimmedOr0 (intDigits base x) := by
  unfold intDigits
  refine ⟨extendTop_val hb x, extendTop_inRange hb hx, extendTop_ne_nil base x, ?_⟩
  rcases lt_or_eq_of_le hx with h1 | h1
  · left
    rw [trimmed_iff]
    intro t ht
    obtain ⟨u, hu1, hu2⟩ := extendTop_getLast_pos hb (by omega : 1 ≤ x)
    rw [hu1] at ht
    have : u = t := by injection ht
    omega
  · right
    rw [← h1]
    exact extendTop_single hb (by omega)

theorem fromInt_spec {base : Int} (hb : 2 ≤ base) (x : Int) (st : NpDType) :
    toInt (fromInt base x false st) = x ∧
    Canon (fromInt base x false st) ∧
    (fromInt base x false st).base = base ∧
    (fromInt base x false st).store = st ∧
    (fromInt base x false st).negative = decide (x < 0) ∧
    (fromInt base x false st).number = intDigits base (if x < 0 then -x else x) := by
  unfold fromInt
  obtain ⟨i1, i2, i3, i4⟩ := intDigits_spec hb
    (show 0 ≤ (if x < 0 then -x else x) by split <;> omega)
  have hid : initFinish base (intDigits base (if x < 0 then -x else x))
      (if x < 0 then true else false) st =
      ⟨intDigits base (if x < 0 then -x else x), base,
        (if x < 0 then true else false), st⟩ := by
    unfold initFinish
    rw [propogate_id hb i3 i2]
    show BBI.mk (trimTop (intDigits base (if x < 0 then -x else x))) base _ st = _
    rw [trimTop_id_of_canon i3 i4]
  rw [hid]
  refine ⟨?_, ⟨i3, i2, i4⟩, rfl, rfl, by split <;> simp [*], rfl⟩
  unfold toInt
  show (if (if x < 0 then true else false) then (-1:Int) else 1) *
      val base (intDigits base (if x < 0 then -x else x)) = x
  rw [i1]
  split <;> simp <;> omega

/-! Correctness of the four operators at the Value level. -/

theorem add_numbers_signed {base : Int} (hb : 2 ≤ base) {x y : List Int} (s1 s2 : Bool)
    (hx : InRange base x) (hy : InRange base y) (tx : TrimmedOr0 x) (ty : TrimmedOr0 y)
    (hne : ¬(x = [] ∧ y = [])) :
    InRange base (add_numbers base x s1 y s2).1 ∧
    Trimmed (add_numbers base x s1 y s2).1 ∧
    (if (add_numbers base x s1 y s2).2 then (-1:Int) else 1) *
        val base (add_numbers base x s1 y s2).1
      = (if s1 then (-1:Int) else 1) * val base x +
        (if s2 then (-1:Int) else 1) * val base y := by
  by_cases hss : s1 = s2
  · subst hss
    obtain ⟨a1, a2, a3, a4⟩ := add_numbers_same hb s1 hx hy hne
    refine ⟨a3, a4, ?_⟩
    rw [a1, a2]
    cases s1 <;> simp <;> ring
  · exact add_numbers_diff hb hss hx hy tx ty

theorem fromArray_add {base : Int} (hb : 2 ≤ base) {n1 n2 : List Int} (s1 s2 : Bool)
    (st : NpDType)
    (h1 : InRange base n1) (h2 : InRange base n2)
    (t1 : TrimmedOr0 n1) (t2 : TrimmedOr0 n2) (hne : ¬(n1 = [] ∧ n2 = [])) :
    toInt (fromArray base (add_numbers base n1 s1 n2 s2).1
        (add_numbers base n1 s1 n2 s2).2 st)
      = (if s1 then (-1:Int) else 1) * val base n1 +
        (if s2 then (-1:Int) else 1) * val base n2 ∧
    Canon (fromArray base (add_numbers base n1 s1 n2 s2).1
        (add_numbers base n1 s1 n2 s2).2 st) ∧
    (fromArray base (add_numbers base n1 s1 n2 s2).1
        (add_numbers base n1 s1 n2 s2).2 st).base = base ∧
    (fromArray base (add_numbers base n1 s1 n2 s2).1
        (add_numbers base n1 s1 n2 s2).2 st).store = st := by
  obtain ⟨ar, at2, asgn⟩ := add_numbers_signed hb s1 s2 h1 h2 t1 t2 hne
  obtain ⟨f1, f2, f3, f4, f5⟩ := fromArray_spec hb (add_numbers base n1 s1 n2 s2).1
    (val_nonneg ar) (add_numbers base n1 s1 n2 s2).2 st
  refine ⟨?_, f5, f1, f3⟩
  unfold toInt
  rw [f1, f2, f4, asgn]

theorem add_correct {x y : BBI} (hb : 2 ≤ x.base) (hxy : y.base = x.base)
    (cx : Canon x) (cy : Canon y) :
    toInt (BBI.add x y) = toInt x + toInt y ∧ Canon (BBI.add x y) ∧
    (BBI.add x y).base = x.base ∧ (BBI.add x y).store = x.store ∧
    (BBI.add x y).negative =
      (add_numbers x.base x.number x.negative y.number y.negative).2 := by
  obtain ⟨hne1, hir1, ht1⟩ := cx
  obtain ⟨hne2, hir2, ht2⟩ := cy
  have hir2x : InRange x.base y.number := by rw [← hxy]; exact hir2
  obtain ⟨g1, g2, g3, g4⟩ := fromArray_add hb x.negative y.negative x.store
    hir1 hir2x ht1 ht2 (fun hc => hne1 hc.1)
  have hbbi : BBI.add x y = fromArray x.base
      (add_numbers x.base x.number x.negative y.number y.negative).1
      (add_numbers x.base x.number x.negative y.number y.negative).2 x.store := rfl
  rw [hbbi]
  refine ⟨?_, g2, g3, g4, ?_⟩
  · rw [g1]
    unfold toInt
    rw [hxy]
  · exact (fromArray_spec hb _ (val_nonneg (add_numbers_signed hb x.negative y.negative
      hir1 hir2x ht1 ht2 (fun hc => hne1 hc.1)).1) _ x.store).2.1

theorem sub_correct {x y : BBI} (hb : 2 ≤ x.base) (hxy : y.base = x.base)
    (cx : Canon x) (cy : Canon y) :
    toInt (BBI.sub x y) = toInt x - toInt y ∧ Canon (BBI.sub x y) ∧
    (BBI.sub x y).base = x.base ∧ (BBI.sub x y).store = x.store := by
  obtain ⟨hne1, hir1, ht1⟩ := cx
  obtain ⟨hne2, hir2, ht2⟩ := cy
  have hir2x : InRange x.base y.number := by rw [← hxy]; exact hir2
  obtain ⟨g1, g2, g3, g4⟩ := fromArray_add hb x.negative (!y.negative) x.store
    hir1 hir2x ht1 ht2 (fun hc => hne1 hc.1)
  have hbbi : BBI.sub x y = fromArray x.base
      (add_numbers x.base x.number x.negative y.number (!y.negative)).1
      (add_numbers x.base x.number x.negative y.number (!y.negative)).2 x.store := rfl
  rw [hbbi]
  refine ⟨?_, g2, g3, g4⟩
  rw [g1]
  unfold toInt
  rw [hxy]
  cases hyn : y.negative <;> simp <;> ring

theorem mul_correct {x y : BBI} (hb : 2 ≤ x.base) (hxy : y.base = x.base)
    (cx : Canon x) (cy : Canon y) :
    toInt (BBI.mul x y) = toInt x * toInt y ∧ Canon (BBI.mul x y) ∧
    (BBI.mul x y).base = x.base ∧ (BBI.mul x y).store = NpDType.int16 := by
  obtain ⟨hne1, hir1, ht1⟩ := cx
  obtain ⟨hne2, hir2, ht2⟩ := cy
  have hir2x : InRange x.base y.number := by rw [← hxy]; exact hir2
  have ht2x : TrimmedOr0 y.number := ht2
  obtain ⟨m1, m2, m3, m4, m5⟩ := multiply_numbers_spec hb hir1 hir2x ht1 ht2x
  have hbbi : BBI.mul x y = fromArray x.base
      (multiply_numbers x.base x.number y.number).1
      ((multiply_numbers x.base x.number y.number).2 || (x.negative != y.negative))
      NpDType.int16 := rfl
  rw [hbbi]
  obtain ⟨f1, f2, f3, f4, f5⟩ := fromArray_spec hb
    (multiply_numbers x.base x.number y.number).1 (val_nonneg m3)
    ((multiply_numbers x.base x.number y.number).2 || (x.negative != y.negative))
    NpDType.int16
  refine ⟨?_, f5, f1, f3⟩
  unfold toInt
  rw [f1, f2, f4, m2, m1, hxy]
  cases hxn : x.negative <;> cases hyn : y.negative <;> simp <;> ring

theorem shift_correct {v : BBI} (hb : 2 ≤ v.base) (cv : Canon v) (k : Int) :
    (k = 0 → BBI.shift v k = ⟨v.number, v.base, v.negative, NpDType.int16⟩) ∧
    (0 < k → toInt (BBI.shift v k) =
      toInt v * v.base ^ k.toNat ∧
      (BBI.shift v k).negative = v.negative ∧ (BBI.shift v k).base = v.base) ∧
    (k < 0 → (v.number.length : Int) + k > 0 →
      (BBI.shift v k).number = v.number.drop (-k).toNat ∧
      (BBI.shift v k).negative = v.negative ∧ (BBI.shift v k).base = v.base ∧
      toInt (BBI.shift v k) = (if v.negative then (-1:Int) else 1) *
        (val v.base v.number / v.base ^ (-k).toNat)) ∧
    (k < 0 → (v.number.length : Int) + k ≤ 0 →
      BBI.shift v k = fromInt v.base 0 false NpDType.int16 ∧
      toInt (BBI.shift v k) = 0) := by
  obtain ⟨hne, hir, ht⟩ := cv
  have hres : fromArray v.base v.number v.negative NpDType.int16 =
      ⟨v.number, v.base, v.negative, NpDType.int16⟩ :=
    fromArray_canon_id hb hne hir ht v.negative NpDType.int16
  refine ⟨?_, ?_, ?_, ?_⟩
  · intro hk
    subst hk
    show fromArray v.base v.number v.negative NpDType.int16 = _
    exact hres
  · intro hk
    have hsh : BBI.shift v k =
        ⟨List.replicate k.toNat 0 ++ v.number, v.base, v.negative, NpDType.int16⟩ := by
      unfold BBI.shift
      rw [if_neg (by omega), if_pos (by omega), hres]
    rw [hsh]
    refine ⟨?_, rfl, rfl⟩
    unfold toInt
    show (if v.negative then (-1:Int) else 1) *
        val v.base (List.replicate k.toNat 0 ++ v.number) = _
    rw [val_zeros_append]
    ring
  · intro hk hlen
    have hsh : BBI.shift v k =
        ⟨v.number.drop (-k).toNat, v.base, v.negative, NpDType.int16⟩ := by
      unfold BBI.shift
      rw [if_neg (by omega), if_neg (by omega), hres, if_pos]
      show (0:Int) < (v.number.length : Int) + k
      omega
    rw [hsh]
    refine ⟨rfl, rfl, rfl, ?_⟩
    unfold toInt
    show (if v.negative then (-1:Int) else 1) *
        val v.base (v.number.drop (-k).toNat) = _
    congr 1
    -- value of the dropped list is the floor quotient of the magnitude
    have htd := val_take_drop v.base v.number (-k).toNat
    have hkle : (-k).toNat ≤ v.number.length := by omega
    rw [List.length_take, min_eq_left hkle] at htd
    have htk0 : 0 ≤ val v.base (v.number.take (-k).toNat) :=
      val_nonneg (inRange_take hir _)
    have htklt : val v.base (v.number.take (-k).toNat) < v.base ^ (-k).toNat := by
      have h5 := val_lt (show (0:Int) < v.base by omega) (inRange_take hir (-k).toNat)
      have h6 : (v.number.take (-k).toNat).length = (-k).toNat := by
        rw [List.length_take, min_eq_left hkle]
      rwa [h6] at h5
    rw [htd]
    rw [Int.add_mul_ediv_left _ _ (show (v.base : Int) ^ (-k).toNat ≠ 0 by positivity)]
    rw [Int.ediv_eq_zero_of_lt htk0 htklt]
    ring
  · intro hk hlen
    have hsh : BBI.shift v k = fromInt v.base 0 false NpDType.int16 := by
      unfold BBI.shift
      rw [if_neg (by omega), if_neg (by omega), hres, if_neg]
      show ¬ (0:Int) < (v.number.length : Int) + k
      omega
    refine ⟨hsh, ?_⟩
    rw [hsh]
    exact (fromInt_spec hb 0 NpDType.int16).1

/-! The schoolbook reference multiplier: value and shape. -/

theorem addVec_val (base : Int) : ∀ (x y : List Int),
    val base (addVec x y) = val base x + val base y := by
  intro x
  induction x with
  | nil =>
    intro y
    simp [addVec, val]
  | cons d ds ih =>
    intro y
    cases y with
    | nil => simp [addVec, val]
    | cons e es =>
      show val base ((d + e) :: addVec ds es) = _
      simp only [val, ih]
      ring

theorem addVec_ne_nil_right : ∀ (x y : List Int), y ≠ [] → addVec x y ≠ [] := by
  intro x y hy
  cases x with
  | nil => simpa [addVec] using hy
  | cons d ds =>
    cases y with
    | nil => exact absurd rfl hy
    | cons e es => simp [addVec]

theorem conv_val (base : Int) : ∀ (x y : List Int),
    val base (conv x y) = val base x * val base y := by
  intro x
  induction x with
  | nil =>
    intro y
    simp [conv, val]
  | cons d ds ih =>
    intro y
    show val base (addVec (y.map (fun e => d * e)) (0 :: conv ds y)) = _
    rw [addVec_val]
    have hmap : y.map (fun e => d * e) = y.map (fun e => e * d) := by
      simp [mul_comm]
    rw [hmap, val_map_scalar]
    show val base y * d + (0 + base * val base (conv ds y)) = val base (d :: ds) * val base y
    rw [ih]
    show val base y * d + (0 + base * (val base ds * val base y)) =
      (d + base * val base ds) * val base y
    ring

theorem conv_ne_nil {x : List Int} (hx : x ≠ []) (y : List Int) : conv x y ≠ [] := by
  cases x with
  | nil => exact absurd rfl hx
  | cons d ds =>
    show addVec (y.map (fun e => d * e)) (0 :: conv ds y) ≠ []
    exact addVec_ne_nil_right _ _ (by simp)

theorem schoolbookMul_spec {base : Int} (hb : 2 ≤ base) {x y : List Int}
    (hx : InRange base x) (hy : InRange base y) (hxne : x ≠ []) :
    (schoolbookMul base x y).2 = false ∧
    val base (schoolbookMul base x y).1 = val base x * val base y ∧
    InRange base (schoolbookMul base x y).1 ∧
    (schoolbookMul base x y).1 ≠ [] ∧
    TrimmedOr0 (schoolbookMul base x y).1 := by
  have hcv : val base (conv x y) = val base x * val base y := conv_val base x y
  have hnn : 0 ≤ val base (conv x y) := by
    rw [hcv]
    exact mul_nonneg (val_nonneg hx) (val_nonneg hy)
  have hcne : conv x y ≠ [] := conv_ne_nil hxne y
  obtain ⟨p2, p1, pr, pn⟩ := propogate_nonneg_spec hb hcne hnn false
  obtain ⟨c1, c2, c3⟩ := trimTop_canon (show (0:Int) < base by omega) pn pr
  refine ⟨rfl, ?_, c2, c1, c3⟩
  show val base (trimTop (propogate_carryovers base (conv x y) false).1) = _
  rw [trimTop_val, p1, hcv]

/-! The string codec: digit characters and their decodings. -/

theorem charDigit10_chOf_nat : ∀ k : Nat, k < 10 →
    charDigit10 (chOf (k : Int)) = some (k : Int) := by decide

theorem charDigitHigh_chOf_nat : ∀ k : Nat, k < 36 →
    charDigitHigh (chOf (k : Int)) = (k : Int) := by decide

theorem chOf_ne_dash_nat : ∀ k : Nat, k < 36 → chOf (k : Int) ≠ '-' := by decide

theorem intToChars_digit_nat : ∀ k : Nat, k < 10 →
    intToChars (k : Int) = [chOf (k : Int)] := by decide

theorem digitChar36_digit_nat : ∀ k : Nat, k < 36 →
    digitChar36 (k : Int) = [chOf (k : Int)] := by decide

theorem toUpper_of_le57 (c : Char) (h : c.toNat ≤ 57) : c.toUpper = c := by
  unfold Char.toUpper
  rw [if_neg (by omega)]

theorem charDigit10_chOf_int {d : Int} (h0 : 0 ≤ d) (h10 : d < 10) :
    charDigit10 (chOf d) = some d := by
  have hk : d = ((d.toNat : Nat) : Int) := (Int.toNat_of_nonneg h0).symm
  rw [hk]
  exact charDigit10_chOf_nat d.toNat (by omega)

theorem charDigitHigh_chOf_int {d : Int} (h0 : 0 ≤ d) (h36 : d < 36) :
    charDigitHigh (chOf d) = d := by
  have hk : d = ((d.toNat : Nat) : Int) := (Int.toNat_of_nonneg h0).symm
  rw [hk]
  exact charDigitHigh_chOf_nat d.toNat (by omega)

theorem chOf_ne_dash_int {d : Int} (h0 : 0 ≤ d) (h36 : d < 36) : chOf d ≠ '-' := by
  have hk : d = ((d.toNat : Nat) : Int) := (Int.toNat_of_nonneg h0).symm
  rw [hk]
  exact chOf_ne_dash_nat d.toNat (by omega)

theorem intToChars_digit_int {d : Int} (h0 : 0 ≤ d) (h10 : d < 10) :
    intToChars d = [chOf d] := by
  have hk : d = ((d.toNat : Nat) : Int) := (Int.toNat_of_nonneg h0).symm
  rw [hk]
  exact intToChars_digit_nat d.toNat (by omega)

theorem digitChar36_digit_int {d : Int} (h0 : 0 ≤ d) (h36 : d < 36) :
    digitChar36 d = [chOf d] := by
  have hk : d = ((d.toNat : Nat) : Int) := (Int.toNat_of_nonneg h0).symm
  rw [hk]
  exact digitChar36_digit_nat d.toNat (by omega)

theorem flatten_singletons (f : Int → List Char) (g : Int → Char) :
    ∀ l : List Int, (∀ d ∈ l, f d = [g d]) → (l.map f).flatten = l.map g := by
  intro l
  induction l with
  | nil => intro _; rfl
  | cons d ds ih =>
    intro h
    rw [List.map_cons, List.flatten_cons, h d (by simp),
      ih (fun e he => h e (by simp [he])), List.map_cons]
    rfl

theorem toStr_eq {v : BBI} (hb : 2 ≤ v.base) (hb36 : v.base ≤ 36)
    (hir : InRange v.base v.number) :
    toStr v = some ((if v.negative then ['-'] else []) ++ v.number.reverse.map chOf) := by
  have hmem : ∀ d ∈ v.number.reverse, 0 ≤ d ∧ d < v.base :=
    fun d hd => hir d (List.mem_reverse.mp hd)
  simp only [toStr]
  by_cases h10 : v.base ≤ 10
  · rw [if_pos h10]
    congr 1
    congr 1
    exact flatten_singletons _ _ _
      (fun d hd => intToChars_digit_int (hmem d hd).1 (by have := (hmem d hd).2; omega))
  · rw [if_neg h10, if_pos hb36]
    congr 1
    congr 1
    exact flatten_singletons _ _ _
      (fun d hd => digitChar36_digit_int (hmem d hd).1 (by have := (hmem d hd).2; omega))

theorem mapM_loop_chOf {base : Int} (hb10 : base ≤ 10) :
    ∀ (l : List Int), InRange base l → ∀ acc : List Int,
      List.mapM.loop charDigit10 (l.map chOf) acc = some (acc.reverse ++ l) := by
  intro l
  induction l with
  | nil =>
    intro _ acc
    simp [List.mapM.loop]
  | cons d rest ih =>
    intro h acc
    rw [inRange_cons] at h
    have hd : charDigit10 (chOf d) = some d :=
      charDigit10_chOf_int h.1.1 (by have := h.1.2; omega)
    rw [List.map_cons]
    show charDigit10 (chOf d) >>=
        (fun b => List.mapM.loop charDigit10 (rest.map chOf) (b :: acc)) = _
    rw [hd]
    show List.mapM.loop charDigit10 (rest.map chOf) (d :: acc) = _
    rw [ih h.2 (d :: acc)]
    simp

theorem mapM_charDigit10_chOf {base : Int} (hb10 : base ≤ 10) {l : List Int}
    (h : InRange base l) : (l.map chOf).mapM charDigit10 = some l := by
  show List.mapM.loop charDigit10 (l.map chOf) [] = some l
  rw [mapM_loop_chOf hb10 l h []]
  rfl

theorem map_charDigitHigh_chOf {base : Int} (hb36 : base ≤ 36) :
    ∀ {l : List Int}, InRange base l → (l.map chOf).map charDigitHigh = l := by
  intro l
  induction l with
  | nil => intro _; rfl
  | cons d rest ih =>
    intro h
    rw [inRange_cons] at h
    rw [List.map_cons, List.map_cons,
      charDigitHigh_chOf_int h.1.1 (by have := h.1.2; omega), ih h.2]

theorem fromStr_cons_eq (base : Int) (c0 : Char) (rest : List Char) (negative : Bool)
    (st : NpDType) :
    fromStr base (c0 :: rest) negative st =
      (if (if c0 = '-' then (c0 :: rest).filter (fun c => c ≠ '-') else c0 :: rest).length < 1
       then some (initFinish base [0] (if c0 = '-' then true else negative) st)
       else if base ≤ 10 then
         match ((if c0 = '-' then (c0 :: rest).filter (fun c => c ≠ '-')
             else c0 :: rest).reverse).mapM charDigit10 with
         | none => none
         | some ds2 => some (initFinish base ds2 (if c0 = '-' then true else negative) st)
       else some (initFinish base
         ((if c0 = '-' then (c0 :: rest).filter (fun c => c ≠ '-')
             else c0 :: rest).reverse.map charDigitHigh)
         (if c0 = '-' then true else negative) st)) := rfl

theorem fromStr_digits {base : Int} (hb : 2 ≤ base) (hb36 : base ≤ 36)
    {ds : List Int} (hir : InRange base ds) (hne : ds ≠ []) (neg : Bool) (st : NpDType) :
    fromStr base ((if neg then ['-'] else []) ++ ds.reverse.map chOf) false st
      = some (initFinish base ds neg st) := by
  have hnerev : ds.reverse ≠ [] := by simpa using hne
  have hmapne : ds.reverse.map chOf ≠ [] := by simpa using hnerev
  have hall : ∀ c ∈ ds.reverse.map chOf, ¬ c = '-' := by
    intro c hc
    obtain ⟨d, hd, hdc⟩ := List.mem_map.mp hc
    have hdr := hir d (List.mem_reverse.mp hd)
    rw [← hdc]
    exact chOf_ne_dash_int hdr.1 (by have := hdr.2; omega)
  have hrevmap : (ds.reverse.map chOf).reverse = ds.map chOf := by
    rw [← List.map_reverse, List.reverse_reverse]
  have hlen : ¬ (ds.reverse.map chOf).length < 1 := by
    have := List.length_pos.mpr hmapne
    omega
  have hbody : (if (ds.reverse.map chOf).length < 1
       then some (initFinish base [0] neg st)
       else if base ≤ 10 then
         match ((ds.reverse.map chOf).reverse).mapM charDigit10 with
         | none => none
         | some ds2 => some (initFinish base ds2 neg st)
       else some (initFinish base ((ds.reverse.map chOf).reverse.map charDigitHigh) neg st))
      = some (initFinish base ds neg st) := by
    rw [if_neg hlen]
    by_cases h10 : base ≤ 10
    · rw [if_pos h10, hrevmap, mapM_charDigit10_chOf h10 hir]
    · rw [if_neg h10, hrevmap, map_charDigitHigh_chOf hb36 hir]
  cases hneg : neg
  · rw [hneg] at hbody
    show fromStr base (ds.reverse.map chOf) false st = some (initFinish base ds false st)
    cases hmap : ds.reverse.map chOf with
    | nil => exact absurd hmap hmapne
    | cons c0 cs =>
      have hc0 : ¬ c0 = '-' := hall c0 (by rw [hmap]; simp)
      rw [fromStr_cons_eq, if_neg hc0, if_neg hc0, ← hmap]
      exact hbody
  · rw [hneg] at hbody
    have hfil : ('-' :: ds.reverse.map chOf).filter (fun c => c ≠ '-')
        = ds.reverse.map chOf := by
      rw [List.filter_cons]
      rw [if_neg (by simp)]
      rw [List.filter_eq_self.mpr]
      intro a ha
      simpa using hall a ha
    show (if (('-' :: ds.reverse.map chOf).filter (fun c => c ≠ '-')).length < 1
       then some (initFinish base [0] true st)
       else if base ≤ 10 then
         match ((('-' :: ds.reverse.map chOf).filter
             (fun c => c ≠ '-')).reverse).mapM charDigit10 with
         | none => none
         | some ds2 => some (initFinish base ds2 true st)
       else some (initFinish base
         ((('-' :: ds.reverse.map chOf).filter
             (fun c => c ≠ '-')).reverse.map charDigitHigh) true st))
      = some (initFinish base ds true st)
    rw [hfil]
    exact hbody

/-! Decimal digit characters through the decoder, independent of the base. -/

theorem val_nonneg_of_entries {base : Int} (hb : 0 ≤ base) :
    ∀ {l : List Int}, (∀ d ∈ l, 0 ≤ d) → 0 ≤ val base l := by
  intro l
  induction l with
  | nil => intro _; exact le_refl 0
  | cons d rest ih =>
    intro h
    have hd := h d (by simp)
    have hr := ih (fun e he => h e (by simp [he]))
    have hm : 0 ≤ base * val base rest := mul_nonneg hb hr
    simp only [val]
    linarith

theorem charDigit10_digit {c : Char} (h1 : 48 ≤ c.toNat) (h2 : c.toNat ≤ 57) :
    charDigit10 c = some ((c.toNat : Int) - 48) := by
  unfold charDigit10
  rw [if_pos ⟨h1, h2⟩]

theorem charDigitHigh_digit {c : Char} (h1 : 48 ≤ c.toNat) (h2 : c.toNat ≤ 57) :
    charDigitHigh c = (c.toNat : Int) - 48 := by
  show (if 48 ≤ c.toUpper.toNat ∧ c.toUpper.toNat ≤ 57 then ((c.toUpper.toNat : Int) - 48)
    else (c.toUpper.toNat : Int) - 65 + 10) = (c.toNat : Int) - 48
  rw [toUpper_of_le57 c h2, if_pos ⟨h1, h2⟩]

theorem mapM_loop_digits :
    ∀ (s : List Char), (∀ c ∈ s, 48 ≤ c.toNat ∧ c.toNat ≤ 57) → ∀ acc : List Int,
      List.mapM.loop charDigit10 s acc
        = some (acc.reverse ++ s.map (fun c => (c.toNat : Int) - 48)) := by
  intro s
  induction s with
  | nil =>
    intro _ acc
    simp [List.mapM.loop]
  | cons c rest ih =>
    intro h acc
    have hc := h c (by simp)
    show charDigit10 c >>=
        (fun b => List.mapM.loop charDigit10 rest (b :: acc)) = _
    rw [charDigit10_digit hc.1 hc.2]
    show List.mapM.loop charDigit10 rest (((c.toNat : Int) - 48) :: acc) = _
    rw [ih (fun e he => h e (by simp [he])) (((c.toNat : Int) - 48) :: acc)]
    simp

theorem map_charDigitHigh_digits :
    ∀ {s : List Char}, (∀ c ∈ s, 48 ≤ c.toNat ∧ c.toNat ≤ 57) →
      s.map charDigitHigh = s.map (fun c => (c.toNat : Int) - 48) := by
  intro s
  induction s with
  | nil => intro _; rfl
  | cons c rest ih =>
    intro h
    have hc := h c (by simp)
    rw [List.map_cons, List.map_cons, charDigitHigh_digit hc.1 hc.2,
      ih (fun e he => h e (by simp [he]))]

/-! Per-claim theorems. -/

theorem fromArray_store (base : Int) (ds : List Int) (neg : Bool) (st : NpDType) :
    (fromArray base ds neg st).store = st := by
  unfold fromArray initFinish
  split <;> rfl

/-- C10: the Values returned by multiply and by shift carry the default
np.int16 digit store regardless of the operands' stores, while add and
subtract propagate the left operand's store to the result. -/
theorem C10_store_propagation (x y : BBI) (k : Int) :
    (BBI.add x y).store = x.store ∧ (BBI.sub x y).store = x.store ∧
    (BBI.mul x y).store = NpDType.int16 ∧ (BBI.shift x k).store = NpDType.int16 := by
  refine ⟨fromArray_store _ _ _ _, fromArray_store _ _ _ _, fromArray_store _ _ _ _, ?_⟩
  simp only [BBI.shift]
  split
  · exact fromArray_store x.base x.number x.negative NpDType.int16
  split
  · exact fromArray_store x.base x.number x.negative NpDType.int16
  split
  · exact fromArray_store x.base x.number x.negative NpDType.int16
  · rfl

/-- C9: the comparator returns its two digit sequences as a pair ordered by
absolute magnitude: the result is one of the two orderings of the operands,
the returned first component has the not-smaller base-weighted magnitude for
canonical digit sequences, a strictly longer operand is always returned
first, and on full equality the first operand comes first. -/
theorem C9_comparator {base : Int} (hb : 2 ≤ base) {x y : List Int}
    (hx : InRange base x) (hy : InRange base y) (tx : TrimmedOr0 x) (ty : TrimmedOr0 y) :
    (get_bigger_smaller x y = (x, y) ∨ get_bigger_smaller x y = (y, x)) ∧
    val base (get_bigger_smaller x y).2 ≤ val base (get_bigger_smaller x y).1 ∧
    (y.length < x.length → get_bigger_smaller x y = (x, y)) ∧
    (x.length < y.length → get_bigger_smaller x y = (y, x)) ∧
    (x = y → get_bigger_smaller x y = (x, y)) := by
  refine ⟨get_bigger_smaller_cases x y, ?_, ?_, ?_, ?_⟩
  · rcases get_bigger_smaller_spec hb hx hy tx ty with ⟨he, hv⟩ | ⟨he, hv⟩ <;>
      rw [he] <;> exact hv
  · intro h
    unfold get_bigger_smaller
    rw [if_neg (by omega), if_neg]
    rintro ⟨h1, _⟩
    omega
  · intro h
    unfold get_bigger_smaller
    rw [if_pos h]
  · intro h
    subst h
    exact get_bigger_smaller_of_eq x

/-- C9 witness: the comparator's contract instantiated at the base-10 digit
sequences [3] and [2, 1]. -/
theorem C9_comparator_witness :
    (get_bigger_smaller [3] [2, 1] = ([3], [2, 1]) ∨
      get_bigger_smaller [3] [2, 1] = ([2, 1], [3])) ∧
    val 10 (get_bigger_smaller [3] [2, 1]).2 ≤ val 10 (get_bigger_smaller [3] [2, 1]).1 ∧
    (([2, 1] : List Int).length < ([3] : List Int).length →
      get_bigger_smaller [3] [2, 1] = ([3], [2, 1])) ∧
    (([3] : List Int).length < ([2, 1] : List Int).length →
      get_bigger_smaller [3] [2, 1] = ([2, 1], [3])) ∧
    (([3] : List Int) = [2, 1] → get_bigger_smaller [3] [2, 1] = ([3], [2, 1])) :=
  C9_comparator (by decide) (by decide) (by decide) (by decide) (by decide)

/-- C4: for a non-empty digit sequence of nonnegative base-weighted value
and any tentative sign, the normalizer preserves the sign and the value
and yields in-range non-empty digits, canonical after the leading-zero
trim of __init__; its negative-most-significant-digit fix flips the sign
(and by the counterexample does not preserve the denoted number). -/
theorem C4_normalizer {base : Int} (hb : 2 ≤ base) {l : List Int} (hl : l ≠ [])
    (hv : 0 ≤ val base l) (neg : Bool) :
    (propogate_carryovers base l neg).2 = neg ∧
    val base (propogate_carryovers base l neg).1 = val base l ∧
    InRange base (propogate_carryovers base l neg).1 ∧
    (propogate_carryovers base l neg).1 ≠ [] ∧
    TrimmedOr0 (trimTop (propogate_carryovers base l neg).1) := by
  obtain ⟨a, b, c, d⟩ := propogate_nonneg_spec hb hl hv neg
  exact ⟨a, b, c, d, (trimTop_canon (by omega) d c).2.2⟩

/-- C4 witness: the normalizer's contract instantiated at base 10 on the
out-of-range digit sequence [15]. -/
theorem C4_normalizer_witness :
    (propogate_carryovers 10 [15] false).2 = false ∧
    val 10 (propogate_carryovers 10 [15] false).1 = val 10 [15] ∧
    InRange 10 (propogate_carryovers 10 [15] false).1 ∧
    (propogate_carryovers 10 [15] false).1 ≠ [] ∧
    TrimmedOr0 (trimTop (propogate_carryovers 10 [15] false).1) :=
  C4_normalizer (by decide) (by decide) (by decide) false

/-- C4 counterexample: on the single negative digit [-3] with tentative sign
false (denoting -3), the normalizer returns ([7], true), which denotes -7:
the negative-top fix is not value-preserving. -/
theorem C4_counterexample :
    propogate_carryovers 10 [-3] false = ([7], true) ∧
    (if (propogate_carryovers 10 [-3] false).2 then (-1 : Int) else 1) *
        val 10 (propogate_carryovers 10 [-3] false).1 = -7 ∧
    (if (false : Bool) then (-1 : Int) else 1) * val 10 [-3] = -3 := by decide

/-- C5: shifting a Value constructed from n: by 0 returns the value
unchanged; by k > 0 multiplies by base^k; by k < 0 with fewer than the digit
count dropped divides the magnitude by base^|k| keeping the sign (a
truncation toward zero of the signed value, not a floor); dropping at least
every digit yields zero. -/
theorem C5_shift {base : Int} (hb : 2 ≤ base) (n : Int) (st : NpDType) (k : Int) :
    (k = 0 → toInt (BBI.shift (fromInt base n false st) k) = n) ∧
    (0 < k → toInt (BBI.shift (fromInt base n false st) k) = n * base ^ k.toNat) ∧
    (k < 0 → (-k) < ((fromInt base n false st).number.length : Int) →
      toInt (BBI.shift (fromInt base n false st) k)
        = (if n < 0 then (-1 : Int) else 1) * ((if n < 0 then -n else n) / base ^ (-k).toNat)) ∧
    (k < 0 → ((fromInt base n false st).number.length : Int) ≤ -k →
      toInt (BBI.shift (fromInt base n false st) k) = 0) := by
  obtain ⟨f1, f2, f3, f4, f5, f6⟩ := fromInt_spec hb n st
  have hbv : 2 ≤ (fromInt base n false st).base := by rw [f3]; exact hb
  obtain ⟨s0, s1, s2, s3⟩ := shift_correct hbv f2 k
  have hval : val base (fromInt base n false st).number = (if n < 0 then -n else n) := by
    rw [f6]
    exact (intDigits_spec hb (by split <;> omega)).1
  refine ⟨?_, ?_, ?_, ?_⟩
  · intro hk
    rw [s0 hk]
    show (if (fromInt base n false st).negative then (-1 : Int) else 1) *
        val (fromInt base n false st).base (fromInt base n false st).number = n
    exact f1
  · intro hk
    obtain ⟨e1, _, _⟩ := s1 hk
    rw [e1, f1, f3]
  · intro hk hlen
    obtain ⟨_, _, _, e4⟩ := s2 hk (by omega)
    rw [e4, f3, hval, f5]
    by_cases hn : n < 0 <;> simp [hn]
  · intro hk hlen
    obtain ⟨_, e2⟩ := s3 hk (by omega)
    exact e2

/-- C5 witness: the shift contract instantiated at base 10, n = 2345,
k = -2. -/
theorem C5_shift_witness :
    ((-2 : Int) = 0 → toInt (BBI.shift (fromInt 10 2345 false NpDType.int16) (-2)) = 2345) ∧
    ((0 : Int) < -2 →
      toInt (BBI.shift (fromInt 10 2345 false NpDType.int16) (-2)) = 2345 * 10 ^ (-2 : Int).toNat) ∧
    ((-2 : Int) < 0 → (-(-2) : Int) < ((fromInt 10 2345 false NpDType.int16).number.length : Int) →
      toInt (BBI.shift (fromInt 10 2345 false NpDType.int16) (-2))
        = (if (2345 : Int) < 0 then (-1 : Int) else 1) *
          ((if (2345 : Int) < 0 then -(2345 : Int) else 2345) / 10 ^ (-(-2) : Int).toNat)) ∧
    ((-2 : Int) < 0 → ((fromInt 10 2345 false NpDType.int16).number.length : Int) ≤ -(-2) →
      toInt (BBI.shift (fromInt 10 2345 false NpDType.int16) (-2)) = 0) :=
  C5_shift (by decide) 2345 NpDType.int16 (-2)

/-- C5 counterexample: shifting the Value -15 by -1 in base 10 yields -1
(the low digit is dropped from the magnitude), while the floor of -15
divided by 10 is -2: the negative-shift result is truncation toward zero,
not floor division of the signed value. -/
theorem C5_counterexample :
    toInt (BBI.shift (fromInt 10 (-15) false NpDType.int16) (-1)) = -1 ∧
    (-15 : Int) / 10 = -2 := by decide

/-- C1: for the listed bases {2, 8, 10, 16, 36, 1000} and all integers a
and c, the Values built from a and c with the default np.int16 digit store
add and subtract to Values denoting a + c and a - c, and multiply to a
Value denoting a * c for the listed bases other than 1000.  On this scope
every intermediate digit value (digits below the base, their sums and
differences with carries, and for bases up to 36 the elementwise digit
products below 36 * 36 plus small carries) stays far inside the int16
range, so the embedding's exact digit arithmetic coincides with the stored
arithmetic; multiplication at base 1000 is excluded because there the
digit product 500 * 500 wraps at 16 bits (the counterexample). -/
theorem C1_arith_correct {base : Int}
    (hbl : base = 2 ∨ base = 8 ∨ base = 10 ∨ base = 16 ∨ base = 36 ∨ base = 1000)
    (a c : Int) :
    toInt (BBI.add (fromInt base a false NpDType.int16)
      (fromInt base c false NpDType.int16)) = a + c ∧
    toInt (BBI.sub (fromInt base a false NpDType.int16)
      (fromInt base c false NpDType.int16)) = a - c ∧
    (base ≠ 1000 →
      toInt (BBI.mul (fromInt base a false NpDType.int16)
        (fromInt base c false NpDType.int16)) = a * c) := by
  have hb : (2 : Int) ≤ base := by rcases hbl with h | h | h | h | h | h <;> omega
  obtain ⟨xa, xb, xc, xd, _, _⟩ := fromInt_spec hb a NpDType.int16
  obtain ⟨ya, yb, yc, yd, _, _⟩ := fromInt_spec hb c NpDType.int16
  have hbx : 2 ≤ (fromInt base a false NpDType.int16).base := by rw [xc]; exact hb
  have hxy : (fromInt base c false NpDType.int16).base
      = (fromInt base a false NpDType.int16).base := by
    rw [yc, xc]
  obtain ⟨a1, _, _, _, _⟩ := add_correct hbx hxy xb yb
  obtain ⟨s1, _, _, _⟩ := sub_correct hbx hxy xb yb
  obtain ⟨m1, _, _, _⟩ := mul_correct hbx hxy xb yb
  rw [a1, s1, m1, xa, ya]
  exact ⟨rfl, rfl, fun _ => rfl⟩

/-- C1 witness: the arithmetic correctness contract instantiated at base
10 on 7 and 5. -/
theorem C1_arith_correct_witness :
    toInt (BBI.add (fromInt 10 7 false NpDType.int16) (fromInt 10 5 false NpDType.int16))
      = 7 + 5 ∧
    toInt (BBI.sub (fromInt 10 7 false NpDType.int16) (fromInt 10 5 false NpDType.int16))
      = 7 - 5 ∧
    ((10 : Int) ≠ 1000 →
      toInt (BBI.mul (fromInt 10 7 false NpDType.int16) (fromInt 10 5 false NpDType.int16))
        = 7 * 5) :=
  C1_arith_correct (by decide) 7 5

/-- C1 counterexample: at base 1000 the Value built from 500 has the single
digit 500; multiplying it by the scalar 500 through the np.int16 digit
arithmetic of the default store (the scalar base case of _multiply_numbers)
returns the digits [856] with a flipped sign, denoting -856, not the native
product 250000: the digit product 250000 wraps to -12144 at 16 bits before
carry propagation. -/
theorem C1_counterexample :
    (fromInt 1000 500 false NpDType.int16).number = [500] ∧
    mulScalarI16 1000 [500] 500 = ([856], true) ∧
    (if (mulScalarI16 1000 [500] 500).2 then (-1 : Int) else 1) *
        val 1000 (mulScalarI16 1000 [500] 500).1 = -856 ∧
    (500 : Int) * 500 = 250000 := by decide

/-- C2: the sum of the Values constructed from "-9" and "9" in base 10 is
the digit sequence [0] carrying sign flag true, so it renders "-0" with a
leading minus: the produced zero Value violates invariant 4 (zero always
carries sign = false) and the spec's predicted rendering "0". -/
theorem C2_neg_zero_bug :
    (BBI.add ⟨[9], 10, true, NpDType.int16⟩ ⟨[9], 10, false, NpDType.int16⟩).number = [0] ∧
    (BBI.add ⟨[9], 10, true, NpDType.int16⟩ ⟨[9], 10, false, NpDType.int16⟩).negative = true ∧
    toStr (BBI.add ⟨[9], 10, true, NpDType.int16⟩ ⟨[9], 10, false, NpDType.int16⟩)
      = some ['-', '0'] := by decide

/-- C3: for canonical digit sequences in a shared base, the Karatsuba
multiplier agrees with the direct schoolbook reference multiplication in
sign and in denoted value, and returns exactly the same digit sequence
whenever the product is nonzero; the counterexample shows the digit
sequences differ on a zero product, where the recursion returns
zero-padded digits. -/
theorem C3_karatsuba_schoolbook {base : Int} (hb : 2 ≤ base) {x y : List Int}
    (hx : InRange base x) (hy : InRange base y) (tx : TrimmedOr0 x) (ty : TrimmedOr0 y)
    (hxne : x ≠ []) (hyne : y ≠ []) :
    (multiply_numbers base x y).2 = (schoolbookMul base x y).2 ∧
    val base (multiply_numbers base x y).1 = val base (schoolbookMul base x y).1 ∧
    (val base x * val base y ≠ 0 → multiply_numbers base x y = schoolbookMul base x y) := by
  obtain ⟨m1, m2, m3, m4, m5⟩ := multiply_numbers_spec hb hx hy tx ty
  obtain ⟨s1, s2, s3, s4, s5⟩ := schoolbookMul_spec hb hx hy hxne
  refine ⟨by rw [m1, s1], by rw [m2, s2], ?_⟩
  intro hnz
  have ht1 : Trimmed (multiply_numbers base x y).1 := m5 hnz
  have ht2 : Trimmed (schoolbookMul base x y).1 := by
    rcases s5 with h | h
    · exact h
    · exfalso
      rw [h] at s2
      have : val base ([0] : List Int) = 0 := by simp [val]
      rw [this] at s2
      exact hnz s2.symm
  have heq1 : (multiply_numbers base x y).1 = (schoolbookMul base x y).1 :=
    val_inj hb _ _ m3 s3 ht1 ht2 (by rw [m2, s2])
  have hpair : ∀ (p q : List Int × Bool), p.1 = q.1 → p.2 = q.2 → p = q := by
    intro p q h1 h2
    cases p
    cases q
    simp_all
  exact hpair _ _ heq1 (by rw [m1, s1])

/-- C3 witness: the Karatsuba-schoolbook agreement instantiated at base 10
on the digit sequences [3] and [2]. -/
theorem C3_karatsuba_schoolbook_witness :
    (multiply_numbers 10 [3] [2]).2 = (schoolbookMul 10 [3] [2]).2 ∧
    val 10 (multiply_numbers 10 [3] [2]).1 = val 10 (schoolbookMul 10 [3] [2]).1 ∧
    (val 10 [3] * val 10 [2] ≠ 0 → multiply_numbers 10 [3] [2] = schoolbookMul 10 [3] [2]) :=
  C3_karatsuba_schoolbook (by decide) (by decide) (by decide) (by decide) (by decide)
    (by decide) (by decide)

/-- C3 counterexample: multiplying [3, 2] by the canonical zero [0] in base
10, the Karatsuba recursion returns the zero-padded digits [0, 0] while the
schoolbook reference returns the canonical [0]: the exact digit sequences
differ on zero products. -/
theorem C3_counterexample :
    multiply_numbers 10 [3, 2] [0] = ([0, 0], false) ∧
    schoolbookMul 10 [3, 2] [0] = ([0], false) ∧
    multiply_numbers 10 [3, 2] [0] ≠ schoolbookMul 10 [3, 2] [0] := by decide

/-- C6: for every base from 2 to 36 and every integer n, rendering the
Value constructed from n and decoding the string back in the same base
returns exactly the original Value; the counterexample shows the round
trip fails at the grouped base 100 (the zero-padded rendering re-decodes
digit-per-character) and that rendering raises at base 37 (the source
joins python ints with a string separator). -/
theorem C6_roundtrip {base : Int} (hb : 2 ≤ base) (hb36 : base ≤ 36) (n : Int)
    (st : NpDType) :
    (toStr (fromInt base n false st)).bind (fun s => fromStr base s false st)
      = some (fromInt base n false st) := by
  obtain ⟨f1, f2, f3, f4, f5, f6⟩ := fromInt_spec hb n st
  obtain ⟨hne, hirv, htv⟩ := f2
  have hirb : InRange base (fromInt base n false st).number := by
    rw [← f3]
    exact hirv
  have hts := toStr_eq (v := fromInt base n false st) (by rw [f3]; exact hb)
    (by rw [f3]; exact hb36) hirv
  rw [hts]
  show fromStr base ((if (fromInt base n false st).negative then ['-'] else [])
      ++ (fromInt base n false st).number.reverse.map chOf) false st
    = some (fromInt base n false st)
  rw [fromStr_digits hb hb36 hirb hne (fromInt base n false st).negative st]
  have hini : initFinish base (fromInt base n false st).number
      (fromInt base n false st).negative st = fromInt base n false st := by
    unfold initFinish
    rw [propogate_id hb hne hirb]
    show BBI.mk (trimTop (fromInt base n false st).number) base
      (fromInt base n false st).negative st = _
    rw [trimTop_id_of_canon hne htv]
    have hsw : BBI.mk (fromInt base n false st).number base
        (fromInt base n false st).negative st
        = BBI.mk (fromInt base n false st).number (fromInt base n false st).base
          (fromInt base n false st).negative (fromInt base n false st).store := by
      rw [f3, f4]
    rw [hsw]
  rw [hini]

/-- C6 witness: the round trip instantiated at base 16 on 255. -/
theorem C6_roundtrip_witness :
    (toStr (fromInt 16 255 false NpDType.int16)).bind
        (fun s => fromStr 16 s false NpDType.int16)
      = some (fromInt 16 255 false NpDType.int16) :=
  C6_roundtrip (by decide) (by decide) 255 NpDType.int16

/-- C6 counterexample: at the grouped base 100 the Value of 100 renders to
the character string "100", which decodes character-per-digit back to the
Value of 10000, not 100; and at base 37 rendering returns no string at all
(the '|'-separated branch raises TypeError). -/
theorem C6_counterexample :
    (toStr (fromInt 100 100 false NpDType.int16)).bind
        (fun s => fromStr 100 s false NpDType.int16)
      = some (fromInt 100 10000 false NpDType.int16) ∧
    toInt (fromInt 100 10000 false NpDType.int16) = 10000 ∧
    (toStr (fromInt 100 100 false NpDType.int16)).bind
        (fun s => fromStr 100 s false NpDType.int16)
      ≠ some (fromInt 100 100 false NpDType.int16) ∧
    toStr (fromInt 37 1 false NpDType.int16) = none := by decide

/-- C7: a string digit outside the base's digit set is not rejected: in
every base at least 2, any non-empty string of decimal digit characters
(for example "9" in base 2) is accepted by construction, and the resulting
Value denotes the base-weighted sum of the face values of those digits. -/
theorem C7_no_rejection {base : Int} (hb : 2 ≤ base) {s : List Char}
    (hne : s ≠ []) (hdigits : ∀ c ∈ s, 48 ≤ c.toNat ∧ c.toNat ≤ 57) (st : NpDType) :
    ∃ v, fromStr base s false st = some v ∧ v.negative = false ∧
      toInt v = val base (s.reverse.map (fun c => (c.toNat : Int) - 48)) := by
  cases s with
  | nil => exact absurd rfl hne
  | cons c0 rest =>
    have hc0 : ¬ c0 = '-' := by
      intro h
      have := (hdigits c0 (by simp)).1
      rw [h] at this
      exact absurd this (by decide)
    have hdsne : (c0 :: rest).reverse.map (fun c => (c.toNat : Int) - 48) ≠ [] := by
      simp
    have hvpos : 0 ≤ val base ((c0 :: rest).reverse.map (fun c => (c.toNat : Int) - 48)) := by
      apply val_nonneg_of_entries (by omega)
      intro d hd
      obtain ⟨c, hc, hdc⟩ := List.mem_map.mp hd
      have hcd := hdigits c (List.mem_reverse.mp hc)
      omega
    obtain ⟨i1, i2, i3, i4, i5⟩ := initFinish_spec hb hdsne hvpos false st
    have hti : toInt (initFinish base
        ((c0 :: rest).reverse.map (fun c => (c.toNat : Int) - 48)) false st)
        = val base ((c0 :: rest).reverse.map (fun c => (c.toNat : Int) - 48)) := by
      unfold toInt
      rw [i1, i2, i4]
      simp
    rw [fromStr_cons_eq, if_neg hc0, if_neg hc0, if_neg (by simp)]
    by_cases h10 : base ≤ 10
    · rw [if_pos h10]
      have hm : ((c0 :: rest).reverse).mapM charDigit10
          = some ((c0 :: rest).reverse.map (fun c => (c.toNat : Int) - 48)) := by
        show List.mapM.loop charDigit10 ((c0 :: rest).reverse) [] = _
        rw [mapM_loop_digits _ (fun c hc => hdigits c (List.mem_reverse.mp hc)) []]
        rfl
      rw [hm]
      exact ⟨_, rfl, i2, hti⟩
    · rw [if_neg h10]
      rw [map_charDigitHigh_digits (fun c hc => hdigits c (List.mem_reverse.mp hc))]
      exact ⟨_, rfl, i2, hti⟩

/-- C7 witness: the acceptance contract instantiated on the string "9" in
base 2. -/
theorem C7_no_rejection_witness :
    ∃ v, fromStr 2 ['9'] false NpDType.int16 = some v ∧ v.negative = false ∧
      toInt v = val 2 ((['9'] : List Char).reverse.map (fun c => (c.toNat : Int) - 48)) :=
  C7_no_rejection (by decide) (by decide) (by decide) NpDType.int16

/-- C7 counterexample: constructing from the string "9" in base 2 is
accepted, not rejected: it yields the Value with digits [1, 0, 0, 1]
(the number nine normalized into base 2), denoting 9. -/
theorem C7_counterexample :
    fromStr 2 ['9'] false NpDType.int16
      = some ⟨[1, 0, 0, 1], 2, false, NpDType.int16⟩ ∧
    toInt ⟨[1, 0, 0, 1], 2, false, NpDType.int16⟩ = 9 := by decide
